import Mathlib

/-!
Verification of the godot-openlipsync streaming lip-sync pipeline.

The development shallowly embeds the two stateful components of the
repository:

* `AudioProcessor` (src/audio_processor.cpp): the streaming log-mel frame
  processor with its Hann window, iterative radix-2 FFT, mel filter bank and
  inter-call overlap buffer.  `float` arithmetic is idealised as real
  arithmetic (`ℝ`), complex samples as `ℂ`.
* `LipSyncContext` (src/lip_sync_context.cpp): the scheduler that downmixes,
  resamples, drains hop-sized chunks into a frame processor and invokes an
  inference engine on a bounded context window.  Samples are idealised as
  rationals (`ℚ`, exact arithmetic), and the two collaborators that the
  scheduler only calls through an opaque interface (the frame processor and
  the ONNX model) are parameters of the definitions.

Buffers that C++ mutates in place are passed explicitly; an in-place array
is a function `ℕ → ℂ` updated with `Function.update`.
-/

set_option linter.unusedVariables false

noncomputable section

/-- State of `AudioProcessor`: configuration fields plus the derived and
transient buffers, as declared in src/audio_processor.h. -/
structure APState where
  sample_rate : ℕ
  hop_length : ℕ
  window_length : ℕ
  n_fft : ℕ
  n_mels : ℕ
  f_min : ℝ
  f_max : ℝ
  window : List ℝ
  window_buffer : List ℝ
  previous_samples : List ℝ
  bit_reverse_table : List ℕ
  trig_tables : List ℂ
  mel_filter_bank : List ℝ

namespace AudioProcessor

/-- The Hann window coefficients computed by `init_window`:
`0.5 * (1 - cos(2 π i / (window_length - 1)))` for `i < window_length`. -/
def hannWindow (wl : ℕ) : List ℝ :=
  (List.range wl).map fun i : ℕ =>
    0.5 * (1 - Real.cos (2 * Real.pi * (i : ℝ) / ((wl : ℝ) - 1)))

/-- `init_window`: recompute the Hann coefficients and resize the transient
window buffer (`std::vector::resize` keeps the existing prefix and fills new
slots with zero, which is what `getD _ 0` on the old buffer yields). -/
def init_window (st : APState) : APState :=
  { st with
    window := hannWindow st.window_length
    window_buffer := (List.range st.window_length).map fun i => st.window_buffer.getD i 0 }

/-- The bit-reversal inner loop of `init_fft`:
`rev = (rev << 1) | (curr & 1); curr >>= 1;` run `levels` times. -/
def bitRevAux : ℕ → ℕ → ℕ → ℕ
  | 0, rev, _ => rev
  | j + 1, rev, curr => bitRevAux j ((rev <<< 1) ||| (curr &&& 1)) (curr >>> 1)

/-- Bit reversal of the low `levels` bits of `i`, starting from `rev = 0`. -/
def bitRev (levels i : ℕ) : ℕ := bitRevAux levels 0 i

/-- The table `bit_reverse_table` built by `init_fft`.  The preliminary
`while (temp > 1) { temp >>= 1; levels++; }` loop computes exactly
`Nat.log2 n_fft`. -/
def bitRevTable (n : ℕ) : List ℕ :=
  (List.range n).map (bitRev (Nat.log2 n))

/-- The table `trig_tables` built by `init_fft`:
entry `i < n/2` is `cos θ + i sin θ` at `θ = -2 π i / n`. -/
def trigTables (n : ℕ) : List ℂ :=
  (List.range (n / 2)).map fun i : ℕ =>
    ⟨Real.cos (-2 * Real.pi * (i : ℝ) / (n : ℝ)),
     Real.sin (-2 * Real.pi * (i : ℝ) / (n : ℝ))⟩

/-- `init_fft`: rebuild both FFT tables from the current `n_fft`. -/
def init_fft (st : APState) : APState :=
  { st with
    bit_reverse_table := bitRevTable st.n_fft
    trig_tables := trigTables st.n_fft }

/-- `hz_to_mel(hz) = 2595 * log10(1 + hz / 700)`. -/
def hz_to_mel (hz : ℝ) : ℝ := 2595 * Real.logb 10 (1 + hz / 700)

/-- `mel_to_hz(mel) = 700 * (10^(mel / 2595) - 1)`. -/
def mel_to_hz (mel : ℝ) : ℝ := 700 * ((10 : ℝ) ^ (mel / 2595) - 1)

/-- The mel points of `init_mel_filter_bank`:
`mel_min + (mel_max - mel_min) * i / (n_mels + 1)` for `i < n_mels + 2`. -/
def melPoint (n_mels : ℕ) (f_min f_max : ℝ) (i : ℕ) : ℝ :=
  hz_to_mel f_min + (hz_to_mel f_max - hz_to_mel f_min) * i / ((n_mels : ℝ) + 1)

/-- The spectral-bin positions of `init_mel_filter_bank`:
`(n_fft + 1) * hz_points[i] / sample_rate` (note the `n_fft + 1`). -/
def binPoint (sr n_fft n_mels : ℕ) (f_min f_max : ℝ) (i : ℕ) : ℝ :=
  ((n_fft : ℝ) + 1) * mel_to_hz (melPoint n_mels f_min f_max i) / (sr : ℝ)

/-- Weight of filter `i` at spectral bin `j`, exactly the branch structure of
the inner loop of `init_mel_filter_bank`. -/
def melWeight (sr n_fft n_mels : ℕ) (f_min f_max : ℝ) (i j : ℕ) : ℝ :=
  let left := binPoint sr n_fft n_mels f_min f_max i
  let center := binPoint sr n_fft n_mels f_min f_max (i + 1)
  let right := binPoint sr n_fft n_mels f_min f_max (i + 2)
  if (j : ℝ) ≥ left ∧ (j : ℝ) ≤ center then ((j : ℝ) - left) / (center - left)
  else if (j : ℝ) > center ∧ (j : ℝ) ≤ right then (right - (j : ℝ)) / (right - center)
  else 0

/-- The flattened row-major `n_mels × (n_fft/2 + 1)` matrix assigned to
`mel_filter_bank` by `init_mel_filter_bank`. -/
def melFilterBank (sr n_fft n_mels : ℕ) (f_min f_max : ℝ) : List ℝ :=
  (List.range n_mels).flatMap fun i =>
    (List.range (n_fft / 2 + 1)).map fun j => melWeight sr n_fft n_mels f_min f_max i j

/-- `init_mel_filter_bank`: rebuild the filter bank from the current config. -/
def init_mel_filter_bank (st : APState) : APState :=
  { st with
    mel_filter_bank :=
      melFilterBank st.sample_rate st.n_fft st.n_mels st.f_min st.f_max }

/-- `reset`: zero-fill the overlap buffer at length
`window_length - hop_length` clamped to be non-negative (natural
subtraction). -/
def reset (st : APState) : APState :=
  { st with previous_samples := List.replicate (st.window_length - st.hop_length) 0 }

/-- `set_sample_rate`: store the rate and recompute the filter bank. -/
def set_sample_rate (st : APState) (r : ℕ) : APState :=
  init_mel_filter_bank { st with sample_rate := r }

/-- `set_fft_size`: store the size, recompute FFT tables and filter bank. -/
def set_fft_size (st : APState) (s : ℕ) : APState :=
  init_mel_filter_bank (init_fft { st with n_fft := s })

/-- `set_hop_length`: store the length and reset the overlap buffer. -/
def set_hop_length (st : APState) (l : ℕ) : APState :=
  reset { st with hop_length := l }

/-- `set_window_length`: store the length, recompute the window, reset. -/
def set_window_length (st : APState) (l : ℕ) : APState :=
  reset (init_window { st with window_length := l })

/-- `set_mel_bands`: store the count and recompute the filter bank. -/
def set_mel_bands (st : APState) (b : ℕ) : APState :=
  init_mel_filter_bank { st with n_mels := b }

/-- `set_frequency_range`: store the range and recompute the filter bank. -/
def set_frequency_range (st : APState) (lo hi : ℝ) : APState :=
  init_mel_filter_bank { st with f_min := lo, f_max := hi }

/-- The `AudioProcessor` constructor: default field values from
audio_processor.h followed by `init_window`, `init_fft`,
`init_mel_filter_bank`, `reset`. -/
def apInit : APState :=
  reset (init_mel_filter_bank (init_fft (init_window
    { sample_rate := 16000
      hop_length := 160
      window_length := 400
      n_fft := 1024
      n_mels := 80
      f_min := 50
      f_max := 8000
      window := []
      window_buffer := []
      previous_samples := []
      bit_reverse_table := []
      trig_tables := []
      mel_filter_bank := [] })))

/-- `std::swap(data[a], data[b])` on an array modelled as a function. -/
def swapFn (d : ℕ → ℂ) (a b : ℕ) : ℕ → ℂ :=
  Function.update (Function.update d a (d b)) b (d a)

/-- The bit-reverse permutation pass of `perform_fft`: for each `i < n`,
swap `data[i]` and `data[table[i]]` when `i < table[i]`. -/
def bitReversePermute (n : ℕ) (brt : List ℕ) (d : ℕ → ℂ) : ℕ → ℂ :=
  (List.range n).foldl
    (fun d i => if i < brt.getD i 0 then swapFn d i (brt.getD i 0) else d) d

/-- The inner two butterfly loops of `perform_fft` for one block starting at
`base`, with butterfly half-span `half` and twiddle stride `step`:
`u = data[base+j]; v = data[base+j+half] * trig[j*step];`
`data[base+j] = u + v; data[base+j+half] = u - v`. -/
def butterfly (tt : List ℂ) (step half base : ℕ) (d : ℕ → ℂ) : ℕ → ℂ :=
  (List.range half).foldl
    (fun d j =>
      let u := d (base + j)
      let v := d (base + j + half) * tt.getD (j * step) 0
      Function.update (Function.update d (base + j) (u + v)) (base + j + half) (u - v)) d

/-- One stage of `perform_fft` (fixed `len`): the loop
`for (i = 0; i < n; i += len)` visits the `⌈n/len⌉` block bases `b * len`. -/
def fftStage (n len : ℕ) (tt : List ℂ) (d : ℕ → ℂ) : ℕ → ℂ :=
  (List.range ((n + len - 1) / len)).foldl
    (fun d b => butterfly tt (n / len) (len / 2) (b * len) d) d

/-- `perform_fft` on an array of size `n` with the given tables: bit-reverse
permutation, then stages `len = 2, 4, ..., 2 ^ log2 n`
(the loop `for (len = 2; len <= n; len <<= 1)`). -/
def perform_fft (n : ℕ) (brt : List ℕ) (tt : List ℂ) (d : ℕ → ℂ) : ℕ → ℂ :=
  (List.range (Nat.log2 n)).foldl
    (fun d s => fftStage n (2 ^ (s + 1)) tt d)
    (bitReversePermute n brt d)

/-- The transient window buffer built by `process_frame`: overlap prefix,
then the new samples (dropped at or beyond `window_length`), and at any
position written by neither loop the stale previous contents. -/
def nextWindowBuffer (st : APState) (input : List ℝ) : List ℝ :=
  (List.range st.window_length).map fun i =>
    if i < st.previous_samples.length then st.previous_samples.getD i 0
    else if i < st.previous_samples.length + st.hop_length then
      input.getD (i - st.previous_samples.length) 0
    else st.window_buffer.getD i 0

/-- The overlap buffer stored for the next call: the window buffer's slice
at offset `hop_length`, zero where `hop_length + i` overruns it. -/
def nextPreviousSamples (st : APState) (wb : List ℝ) : List ℝ :=
  (List.range st.previous_samples.length).map fun i =>
    if st.hop_length + i < st.window_length then wb.getD (st.hop_length + i) 0 else 0

/-- `process_frame`: reject inputs whose length is not `hop_length`;
otherwise slide the window, apply the Hann window, zero-pad to `n_fft`,
FFT, mel-weighted power spectrum, `10 log10(max(sum, 1e-10))`, and per-frame
mean/standard-deviation normalisation with the deviation floored at `1e-8`.
(The unused `mag = std::abs(...)` line of the source is dropped; the power
actually summed is `std::norm`, the squared magnitude.) -/
def process_frame (st : APState) (input : List ℝ) : APState × List ℝ :=
  if input.length ≠ st.hop_length then (st, [])
  else
    let wb := nextWindowBuffer st input
    let prev2 := nextPreviousSamples st wb
    let fftIn : ℕ → ℂ := fun i =>
      if i < st.window_length then ((wb.getD i 0 * st.window.getD i 0 : ℝ) : ℂ) else 0
    let spec := perform_fft st.n_fft st.bit_reverse_table st.trig_tables fftIn
    let ns := st.n_fft / 2 + 1
    let mel := (List.range st.n_mels).map fun i =>
      10 * Real.logb 10
        (max (∑ j in Finset.range ns, Complex.normSq (spec j) * st.mel_filter_bank.getD (i * ns + j) 0)
          1e-10)
    let mean := mel.sum / (st.n_mels : ℝ)
    let sd := max (Real.sqrt ((mel.map fun v => (v - mean) ^ 2).sum / (st.n_mels : ℝ))) 1e-8
    ({ st with window_buffer := wb, previous_samples := prev2 },
      mel.map fun v => (v - mean) / sd)

end AudioProcessor

/-!  ## LipSyncContext (src/lip_sync_context.cpp)

The scheduler is embedded parametrically in the two collaborators it merely
calls: the frame processor (`pf`, with an opaque state type `σ`, standing
for `processor->process_frame`) and the inference engine (`run`, standing
for `model->run_inference`).  Samples are rationals; the claims about the
scheduler concern only sizes and data movement, never trigonometric values.
-/

/-- State of `LipSyncContext`: the accumulation buffer, the feature context
window (front = oldest), capacity, the resampler's carried fraction, whether
the model handle has been instantiated (`!model.is_null()`), and the opaque
frame-processor state. -/
structure LCState (σ : Type) where
  audio_buffer : List ℚ
  feature_buffer : List (List ℚ)
  context_size : ℕ
  resample_fraction : ℚ
  model_present : Bool
  proc : σ

namespace LipSyncContext

/-- C truncation toward zero, the effect of the cast `(int)current_pos`. -/
def truncToInt (q : ℚ) : ℤ := if q < 0 then -(Int.floor (-q)) else Int.floor q

/-- The resampling loop of `_resample_and_push`:
`while (current_pos < count - 1)` emit the linear interpolation of the two
bracketing samples and advance by the rate quotient `rq`.  Returns the final
cursor and the emitted samples.  The conjunct `0 < rq` confines the model to
the terminating executions (a non-positive rate quotient hangs the C++
loop). -/
def resampleLoop (rq limit : ℚ) (input : List ℚ) (pos : ℚ) : ℚ × List ℚ :=
  if h : pos < limit ∧ 0 < rq then
    let idx := truncToInt pos
    let t := pos - (idx : ℚ)
    let s0 := input.getD idx.toNat 0
    let s1 := input.getD (idx.toNat + 1) 0
    let rest := resampleLoop rq limit input (pos + rq)
    (rest.1, (s0 + (s1 - s0) * t) :: rest.2)
  else (pos, [])
termination_by (⌈(limit - pos) / rq⌉₊ : ℕ)
decreasing_by
  rcases h with ⟨h1, h2⟩
  have hx : (0 : ℚ) < (limit - pos) / rq := div_pos (by linarith) h2
  have harg : (limit - (pos + rq)) / rq = (limit - pos) / rq - 1 := by
    field_simp
    ring
  rw [harg]
  rcases le_or_lt ((limit - pos) / rq - 1) 0 with hle | hlt
  · calc ⌈(limit - pos) / rq - 1⌉₊ = 0 := by
          exact Nat.ceil_eq_zero.mpr hle
        _ < ⌈(limit - pos) / rq⌉₊ := Nat.ceil_pos.mpr hx
  · have h3 : (⌈(limit - pos) / rq - 1⌉₊ : ℚ) < (limit - pos) / rq := by
      calc (⌈(limit - pos) / rq - 1⌉₊ : ℚ) < ((limit - pos) / rq - 1) + 1 :=
            Nat.ceil_lt_add_one (le_of_lt hlt)
        _ = (limit - pos) / rq := by ring
    exact Nat.lt_ceil.mpr h3

/-- `_resample_and_push`: no-op on an empty chunk; direct copy when the
source rate already is the 16 kHz target; otherwise run the interpolation
loop from the carried fraction, then carry `current_pos - count` for the
next chunk, adding the rate quotient once if that carry is negative. -/
def resampleAndPush {σ : Type} (st : LCState σ) (input : List ℚ)
    (source_rate : ℕ) : LCState σ :=
  if input.length = 0 then st
  else if source_rate ≠ 16000 then
    let rq : ℚ := (source_rate : ℚ) / 16000
    let r := resampleLoop rq ((input.length : ℚ) - 1) input st.resample_fraction
    let f0 := r.1 - (input.length : ℚ)
    let f1 := if f0 < 0 then f0 + rq else f0
    { st with audio_buffer := st.audio_buffer ++ r.2, resample_fraction := f1 }
  else { st with audio_buffer := st.audio_buffer ++ input }

/-- The hop loop of `process`: while at least 160 buffered samples remain,
feed the first 160 to the frame processor, append a non-empty result to the
context window, drop the consumed samples, and evict the oldest frame if the
window exceeds `cs`.  Returns the remaining samples, the window, the
processor state and the new-features flag. -/
def hopLoop {σ : Type} (pf : σ → List ℚ → σ × List ℚ) (cs : ℕ)
    (audio : List ℚ) (fb : List (List ℚ)) (ps : σ) (added : Bool) :
    List ℚ × List (List ℚ) × σ × Bool :=
  if h : 160 ≤ audio.length then
    let pr := pf ps (audio.take 160)
    let pushed := if 0 < pr.2.length then (fb ++ [pr.2], true) else (fb, added)
    let fb2 := if cs < pushed.1.length then pushed.1.tail else pushed.1
    hopLoop pf cs (audio.drop 160) fb2 pr.1 pushed.2
  else (audio, fb, ps, added)
termination_by audio.length
decreasing_by
  simp only [List.length_drop]
  omega

/-- The flattening loop of `process`: frame `i`, channel `j < 80` lands at
flat index `i * 80 + j` (the source reads `frame[j]` unconditionally; the
embedding totalises the read as `getD j 0`). -/
def flattenFrames (fb : List (List ℚ)) : List ℚ :=
  fb.flatMap fun f => (List.range 80).map fun j => f.getD j 0

/-- The inference tail of `process`: if new features were added and the
window is non-empty, flatten it, run the engine, and on a non-empty output
of length `L` return the `L / frame_count` values starting at flat position
`(frame_count - 1) * (L / frame_count)`; otherwise return the empty
result. -/
def inferStep (run : List ℚ → List ℚ) (fb : List (List ℚ)) (added : Bool) :
    List ℚ :=
  if added = true ∧ fb ≠ [] then
    let output := run (flattenFrames fb)
    if 0 < output.length then
      let nv := output.length / fb.length
      (List.range nv).map fun i => output.getD ((fb.length - 1) * nv + i) 0
    else []
  else []

/-- `LipSyncContext::process`: return empty while the model handle is null
or the stereo block is empty; otherwise downmix `(x + y) * 0.5`, resample
into the accumulation buffer, drain hop-sized chunks, and run the inference
tail. -/
def process {σ : Type} (pf : σ → List ℚ → σ × List ℚ)
    (run : List ℚ → List ℚ) (st : LCState σ) (input : List (ℚ × ℚ))
    (source_rate : ℕ) : LCState σ × List ℚ :=
  if st.model_present = false then (st, [])
  else if input.length = 0 then (st, [])
  else
    let mono := input.map fun p => (p.1 + p.2) * (1 / 2)
    let st1 := resampleAndPush st mono source_rate
    let r := hopLoop pf st.context_size st1.audio_buffer st1.feature_buffer st1.proc false
    ({ st1 with audio_buffer := r.1, feature_buffer := r.2.1, proc := r.2.2.1 },
      inferStep run r.2.1 r.2.2.2)

/-- The trimming loop of `set_context_size`:
`while (feature_buffer.size() > context_size) pop_front()`. -/
def trimLoop (fb : List (List ℚ)) (cs : ℕ) : List (List ℚ) :=
  if h : cs < fb.length then trimLoop fb.tail cs else fb
termination_by fb.length
decreasing_by
  simp only [List.length_tail]
  omega

/-- `set_context_size`: store the capacity, then trim from the front. -/
def set_context_size {σ : Type} (st : LCState σ) (n : ℕ) : LCState σ :=
  { st with context_size := n, feature_buffer := trimLoop st.feature_buffer n }

/-- `LipSyncContext::reset`: clear both buffers, reset the processor
(abstractly, through the hook `rp`), zero the carried fraction. -/
def lcReset {σ : Type} (rp : σ → σ) (st : LCState σ) : LCState σ :=
  { st with
    audio_buffer := []
    feature_buffer := []
    proc := rp st.proc
    resample_fraction := 0 }

/-- `load_model`: the handle is instantiated whether or not loading
succeeds; a successful load additionally resets the transient state. -/
def load_model {σ : Type} (rp : σ → σ) (st : LCState σ) (success : Bool) :
    LCState σ :=
  if success then { (lcReset rp st) with model_present := true }
  else { st with model_present := true }

/-- Initial `LipSyncContext` state: empty buffers, `context_size = 100`,
zero carried fraction, no model handle, the given processor state. -/
def lcInit {σ : Type} (ps : σ) : LCState σ :=
  { audio_buffer := [], feature_buffer := [], context_size := 100,
    resample_fraction := 0, model_present := false, proc := ps }

/-- The external operations a caller can perform on a `LipSyncContext`. -/
inductive LCOp : Type
  | processOp (input : List (ℚ × ℚ)) (source_rate : ℕ)
  | setContextSizeOp (n : ℕ)
  | resetOp
  | loadModelOp (success : Bool)

/-- One caller operation applied to the state. -/
def stepOp {σ : Type} (pf : σ → List ℚ → σ × List ℚ)
    (run : List ℚ → List ℚ) (rp : σ → σ) (st : LCState σ) : LCOp → LCState σ
  | .processOp input sr => (process pf run st input sr).1
  | .setContextSizeOp n => set_context_size st n
  | .resetOp => lcReset rp st
  | .loadModelOp success => load_model rp st success

/-- The state after a sequence of caller operations from the initial
state. -/
def runOps {σ : Type} (pf : σ → List ℚ → σ × List ℚ)
    (run : List ℚ → List ℚ) (rp : σ → σ) (ps : σ) (ops : List LCOp) :
    LCState σ :=
  ops.foldl (stepOp pf run rp) (lcInit ps)

end LipSyncContext

/-!  ## Definitions supporting individual claims -/

/-- The primitive `N`-th root of unity used by the DFT,
`e^(-2 π i / N)`. -/
def twiddle (N : ℕ) : ℂ :=
  Complex.exp (-(2 * (Real.pi : ℂ) * Complex.I) / (N : ℂ))

/-- The spec's mel points: `n_mels + 2` values evenly spaced between
`hz_to_mel f_min` and `hz_to_mel f_max`, converted to Hz and then to a bin
position with the deliberate `n_fft + 1` scaling constant. -/
def specBin (sr n_fft n_mels : ℕ) (f_min f_max : ℝ) (i : ℕ) : ℝ :=
  ((n_fft : ℝ) + 1) *
    AudioProcessor.mel_to_hz
      (AudioProcessor.hz_to_mel f_min +
        (i : ℝ) * (AudioProcessor.hz_to_mel f_max - AudioProcessor.hz_to_mel f_min) /
          ((n_mels : ℝ) + 1)) / (sr : ℝ)

/-- The spec's filter weight at bin `j`: `(j - left) / (center - left)` for
`left ≤ j ≤ center`, `(right - j) / (right - center)` for
`center < j ≤ right`, else `0`. -/
def specWeight (sr n_fft n_mels : ℕ) (f_min f_max : ℝ) (i j : ℕ) : ℝ :=
  let left := specBin sr n_fft n_mels f_min f_max i
  let center := specBin sr n_fft n_mels f_min f_max (i + 1)
  let right := specBin sr n_fft n_mels f_min f_max (i + 2)
  if left ≤ (j : ℝ) ∧ (j : ℝ) ≤ center then ((j : ℝ) - left) / (center - left)
  else if center < (j : ℝ) ∧ (j : ℝ) ≤ right then (right - (j : ℝ)) / (right - center)
  else 0

/-- The spec's row-major `n_mels × (n_fft/2 + 1)` bank. -/
def specMelBank (sr n_fft n_mels : ℕ) (f_min f_max : ℝ) : List ℝ :=
  (List.range n_mels).flatMap fun i =>
    (List.range (n_fft / 2 + 1)).map fun j => specWeight sr n_fft n_mels f_min f_max i j

/-- A configuration makes `init_mel_filter_bank` divide by zero when some
executed branch has a zero-width denominator. -/
def melBankHitsZeroDivision (sr n_fft n_mels : ℕ) (f_min f_max : ℝ) : Prop :=
  ∃ i < n_mels, ∃ j < n_fft / 2 + 1,
    ((((j : ℝ) ≥ AudioProcessor.binPoint sr n_fft n_mels f_min f_max i ∧
        (j : ℝ) ≤ AudioProcessor.binPoint sr n_fft n_mels f_min f_max (i + 1)) ∧
      AudioProcessor.binPoint sr n_fft n_mels f_min f_max (i + 1) -
        AudioProcessor.binPoint sr n_fft n_mels f_min f_max i = 0)) ∨
    ((¬((j : ℝ) ≥ AudioProcessor.binPoint sr n_fft n_mels f_min f_max i ∧
        (j : ℝ) ≤ AudioProcessor.binPoint sr n_fft n_mels f_min f_max (i + 1)) ∧
      ((j : ℝ) > AudioProcessor.binPoint sr n_fft n_mels f_min f_max (i + 1) ∧
        (j : ℝ) ≤ AudioProcessor.binPoint sr n_fft n_mels f_min f_max (i + 2))) ∧
      AudioProcessor.binPoint sr n_fft n_mels f_min f_max (i + 2) -
        AudioProcessor.binPoint sr n_fft n_mels f_min f_max (i + 1) = 0)

/-- Every derived field agrees with its rebuild from the current
configuration, and the transient buffers have their configured sizes. -/
def APConsistent (st : APState) : Prop :=
  st.window = AudioProcessor.hannWindow st.window_length ∧
  st.bit_reverse_table = AudioProcessor.bitRevTable st.n_fft ∧
  st.trig_tables = AudioProcessor.trigTables st.n_fft ∧
  st.mel_filter_bank =
    AudioProcessor.melFilterBank st.sample_rate st.n_fft st.n_mels st.f_min st.f_max ∧
  st.previous_samples.length = st.window_length - st.hop_length ∧
  st.window_buffer.length = st.window_length

/-- A tiny concrete processor state (window 2, hop 1, zeroed overlap) used
to exhibit the missing reset. -/
def apC9base : APState :=
  { sample_rate := 16000, hop_length := 1, window_length := 2, n_fft := 2,
    n_mels := 1, f_min := 0, f_max := 1, window := [1, 1],
    window_buffer := [0, 0], previous_samples := [0],
    bit_reverse_table := [], trig_tables := [], mel_filter_bank := [] }

/-- A small concrete processor state used to witness C2: window length 4,
hop 2, a two-sample overlap buffer holding 9 and 8. -/
def apC2state : APState :=
  { sample_rate := 16000, hop_length := 2, window_length := 4, n_fft := 4,
    n_mels := 1, f_min := 0, f_max := 1, window := [1, 1, 1, 1],
    window_buffer := [0, 0, 0, 0], previous_samples := [9, 8],
    bit_reverse_table := [], trig_tables := [], mel_filter_bank := [] }

/-- A scheduler state with a model handle and empty buffers, plus the two
collaborator hooks, used to witness the amended C6. -/
def lcC6state : LCState Unit :=
  { audio_buffer := [], feature_buffer := [], context_size := 100,
    resample_fraction := 0, model_present := true, proc := () }

/-- A frame-processor hook that always yields the one-value frame `[1]`. -/
def c6pf : Unit → List ℚ → Unit × List ℚ := fun s _ => (s, [1])

/-- An engine hook that always yields five values. -/
def c6run : List ℚ → List ℚ := fun _ => [10, 20, 30, 40, 50]

/-- The hop-loop outcome of the C6 witness call. -/
def c6r : List ℚ × List (List ℚ) × Unit × Bool :=
  LipSyncContext.hopLoop c6pf lcC6state.context_size
    (LipSyncContext.resampleAndPush lcC6state
      (([((0 : ℚ), (0 : ℚ))]).map fun p => (p.1 + p.2) * (1 / 2)) 16000).audio_buffer
    (LipSyncContext.resampleAndPush lcC6state
      (([((0 : ℚ), (0 : ℚ))]).map fun p => (p.1 + p.2) * (1 / 2)) 16000).feature_buffer
    (LipSyncContext.resampleAndPush lcC6state
      (([((0 : ℚ), (0 : ℚ))]).map fun p => (p.1 + p.2) * (1 / 2)) 16000).proc false

/-!  ## Generic list helpers -/

theorem getD_range_map {α : Type} (f : ℕ → α) (n i : ℕ) (d : α) :
    ((List.range n).map f).getD i d = if i < n then f i else d := by
  rcases lt_or_ge i n with hlt | hge
  · rw [List.getD_eq_getElem _ _ (by simpa using hlt)]
    simp [hlt]
  · rw [List.getD_eq_default _ _ (by simpa using hge)]
    simp [Nat.not_lt.mpr hge]

/-!  ## C3 groundwork, part 1: arithmetic of the bit-reversal loop -/

theorem bitRevAux_step (j rev curr : ℕ) :
    AudioProcessor.bitRevAux (j + 1) rev curr =
      AudioProcessor.bitRevAux j (2 * rev + curr % 2) (curr / 2) := by
  show AudioProcessor.bitRevAux j ((rev <<< 1) ||| (curr &&& 1)) (curr >>> 1) =
    AudioProcessor.bitRevAux j (2 * rev + curr % 2) (curr / 2)
  have h1 : rev <<< 1 = 2 * rev := by
    rw [Nat.shiftLeft_eq]
    ring
  have h2 : curr &&& 1 = curr % 2 := Nat.and_one_is_mod curr
  have h3 : curr >>> 1 = curr / 2 := Nat.shiftRight_one curr
  have h4 : (2 * rev) ||| (curr % 2) = 2 * rev + curr % 2 := by
    have hb : curr % 2 < 2 := Nat.mod_lt _ (by norm_num)
    interval_cases h : curr % 2
    · simp
    · have h := Nat.lor_bit false rev true 0
      simpa [Nat.bit] using h
  rw [h1, h2, h3, h4]

theorem bitRevAux_acc (j : ℕ) : ∀ rev curr : ℕ,
    AudioProcessor.bitRevAux j rev curr =
      rev * 2 ^ j + AudioProcessor.bitRevAux j 0 curr := by
  induction j with
  | zero =>
    intro rev curr
    simp [AudioProcessor.bitRevAux]
  | succ j ih =>
    intro rev curr
    rw [bitRevAux_step, bitRevAux_step, ih, ih (2 * 0 + curr % 2)]
    have hp : (2 : ℕ) ^ (j + 1) = 2 * 2 ^ j := by ring
    rw [hp]
    ring

/-- The recurrence on the low bit: reversing `j + 1` bits of `c` puts
`c % 2` at the top. -/
theorem bitRev_succ_lo (j c : ℕ) :
    AudioProcessor.bitRev (j + 1) c =
      c % 2 * 2 ^ j + AudioProcessor.bitRev j (c / 2) := by
  unfold AudioProcessor.bitRev
  rw [bitRevAux_step, bitRevAux_acc]
  ring_nf

theorem bitRev_lt (j : ℕ) : ∀ c : ℕ, AudioProcessor.bitRev j c < 2 ^ j := by
  induction j with
  | zero =>
    intro c
    simp [AudioProcessor.bitRev, AudioProcessor.bitRevAux]
  | succ j ih =>
    intro c
    rw [bitRev_succ_lo]
    have h1 : c % 2 ≤ 1 := by omega
    have h2 := ih (c / 2)
    have hp : (2 : ℕ) ^ (j + 1) = 2 * 2 ^ j := by ring
    rw [hp]
    nlinarith

/-- The recurrence on the top bit: reversing `j + 1` bits of `c < 2 ^ (j+1)`
puts the top bit `c / 2 ^ j` at the bottom. -/
theorem bitRev_succ_hi (j : ℕ) : ∀ c : ℕ, c < 2 ^ (j + 1) →
    AudioProcessor.bitRev (j + 1) c =
      2 * AudioProcessor.bitRev j (c % 2 ^ j) + c / 2 ^ j := by
  induction j with
  | zero =>
    intro c hc
    rw [bitRev_succ_lo]
    simp [AudioProcessor.bitRev, AudioProcessor.bitRevAux]
    omega
  | succ j ih =>
    intro c hc
    rw [bitRev_succ_lo (j + 1) c]
    rw [ih (c / 2) (by
      have hp : (2 : ℕ) ^ (j + 1 + 1) = 2 ^ (j + 1) * 2 := by ring
      rw [hp] at hc
      omega)]
    rw [bitRev_succ_lo j (c % 2 ^ (j + 1))]
    have e1 : c % 2 ^ (j + 1) % 2 = c % 2 := by
      apply Nat.mod_mod_of_dvd
      exact ⟨2 ^ j, by ring⟩
    have e2 : c % 2 ^ (j + 1) / 2 = c / 2 % 2 ^ j := by
      have hp : (2 : ℕ) ^ (j + 1) = 2 * 2 ^ j := by ring
      rw [hp]
      exact Nat.mod_mul_right_div_self c 2 (2 ^ j)
    have e3 : c / 2 / 2 ^ j = c / 2 ^ (j + 1) := by
      rw [Nat.div_div_eq_div_mul]
      congr 1
      ring
    rw [e1, e2, e3]
    have hp : (2 : ℕ) ^ (j + 1) = 2 * 2 ^ j := by ring
    rw [hp]
    ring

theorem bitRev_involution (j : ℕ) : ∀ c : ℕ, c < 2 ^ j →
    AudioProcessor.bitRev j (AudioProcessor.bitRev j c) = c := by
  induction j with
  | zero =>
    intro c hc
    interval_cases c
    rfl
  | succ j ih =>
    intro c hc
    rw [bitRev_succ_lo j c]
    have hb : c % 2 ≤ 1 := by omega
    have hr : AudioProcessor.bitRev j (c / 2) < 2 ^ j := bitRev_lt j (c / 2)
    have harg : c % 2 * 2 ^ j + AudioProcessor.bitRev j (c / 2) < 2 ^ (j + 1) := by
      have hp : (2 : ℕ) ^ (j + 1) = 2 * 2 ^ j := by ring
      nlinarith
    rw [bitRev_succ_hi j _ harg]
    have e1 : (c % 2 * 2 ^ j + AudioProcessor.bitRev j (c / 2)) % 2 ^ j =
        AudioProcessor.bitRev j (c / 2) := by
      rw [Nat.add_comm, Nat.add_mul_mod_self_right]
      exact Nat.mod_eq_of_lt hr
    have e2 : (c % 2 * 2 ^ j + AudioProcessor.bitRev j (c / 2)) / 2 ^ j = c % 2 := by
      rw [Nat.add_comm, Nat.add_mul_div_right _ _ (Nat.pos_pow_of_pos j (by norm_num))]
      rw [Nat.div_eq_of_lt hr]
      omega
    rw [e1, e2, ih (c / 2) (by
      have hp : (2 : ℕ) ^ (j + 1) = 2 * 2 ^ j := by ring
      omega)]
    omega

/-- The `while (temp > 1)` level count of `init_fft` on an exact power of
two. -/
theorem log2_two_pow (m : ℕ) : Nat.log2 (2 ^ m) = m := by
  induction m with
  | zero =>
    rw [pow_zero, Nat.log2]
    norm_num
  | succ m ih =>
    rw [Nat.log2]
    have h2 : 2 ^ (m + 1) ≥ 2 := by
      calc (2 : ℕ) = 2 ^ 1 := by norm_num
        _ ≤ 2 ^ (m + 1) := Nat.pow_le_pow_right (by norm_num) (by omega)
    rw [if_pos h2]
    have hdiv : 2 ^ (m + 1) / 2 = 2 ^ m := by
      rw [Nat.pow_succ]
      exact Nat.mul_div_cancel _ (by norm_num)
    rw [hdiv, ih]

/-!  ## C3 groundwork, part 2: the conditional-swap pass is the
bit-reversal permutation -/

theorem swapFn_apply (d : ℕ → ℂ) (a b j : ℕ) :
    AudioProcessor.swapFn d a b j =
      if j = b then d a else if j = a then d b else d j := by
  unfold AudioProcessor.swapFn
  rw [Function.update_apply, Function.update_apply]

theorem foldSwaps_apply (n : ℕ) (rev : ℕ → ℕ) (d : ℕ → ℂ)
    (hrange : ∀ i, i < n → rev i < n) (hinv : ∀ i, i < n → rev (rev i) = i)
    (j : ℕ) (hj : j < n) :
    ((List.range n).foldl
      (fun dd i => if i < rev i then AudioProcessor.swapFn dd i (rev i) else dd) d) j
      = d (rev j) := by
  suffices key : ∀ k, k ≤ n → ∀ j,
      ((List.range k).foldl
        (fun dd i => if i < rev i then AudioProcessor.swapFn dd i (rev i) else dd) d) j =
        if j < n ∧ (j < k ∨ rev j < k) then d (rev j) else d j by
    rw [key n le_rfl j, if_pos ⟨hj, Or.inl hj⟩]
  intro k
  induction k with
  | zero =>
    intro hk j
    simp
  | succ k ih =>
    intro hk j
    rw [List.range_succ, List.foldl_append, List.foldl_cons, List.foldl_nil]
    have ihD := ih (by omega)
    have hkn : k < n := by omega
    by_cases hsw : k < rev k
    · rw [if_pos hsw, swapFn_apply]
      by_cases hj1 : j = rev k
      · rw [if_pos hj1, ihD k,
          if_neg (by
            rintro ⟨-, hor⟩
            omega),
          hj1,
          if_pos ⟨hrange k hkn, Or.inr (by rw [hinv k hkn]; omega)⟩,
          hinv k hkn]
      · rw [if_neg hj1]
        by_cases hj2 : j = k
        · rw [if_pos hj2, ihD (rev k),
            if_neg (by
              rintro ⟨-, hor⟩
              rcases hor with h | h
              · omega
              · rw [hinv k hkn] at h
                omega),
            hj2, if_pos ⟨hkn, Or.inl (by omega)⟩]
        · rw [if_neg hj2, ihD j]
          by_cases hjn : j < n
          · have hrj : rev j ≠ k := by
              intro h
              apply hj1
              rw [← h, hinv j hjn]
            have hiff : (j < k ∨ rev j < k) ↔ (j < k + 1 ∨ rev j < k + 1) := by
              omega
            by_cases hc : j < k ∨ rev j < k
            · rw [if_pos ⟨hjn, hc⟩, if_pos ⟨hjn, hiff.mp hc⟩]
            · rw [if_neg (by
                  rintro ⟨-, h⟩
                  exact hc h),
                if_neg (by
                  rintro ⟨-, h⟩
                  exact hc (hiff.mpr h))]
          · rw [if_neg (by rintro ⟨h, -⟩; exact hjn h),
              if_neg (by rintro ⟨h, -⟩; exact hjn h)]
    · rw [if_neg hsw, ihD j]
      have hrk : rev k ≤ k := by omega
      by_cases hjn : j < n
      · by_cases hj2 : j = k
        · subst hj2
          by_cases hc : rev j < j
          · rw [if_pos ⟨hjn, Or.inr hc⟩, if_pos ⟨hjn, Or.inr (by omega)⟩]
          · have hrev : rev j = j := by omega
            rw [if_neg (by rintro ⟨-, h⟩; omega),
              if_pos ⟨hjn, Or.inl (by omega)⟩, hrev]
        · by_cases hrevk : rev j = k
          · have hjrev : j = rev k := by rw [← hrevk, hinv j hjn]
            have hjk : j < k := by omega
            rw [if_pos ⟨hjn, Or.inl hjk⟩, if_pos ⟨hjn, Or.inl (by omega)⟩]
          · have hiff : (j < k ∨ rev j < k) ↔ (j < k + 1 ∨ rev j < k + 1) := by
              omega
            by_cases hc : j < k ∨ rev j < k
            · rw [if_pos ⟨hjn, hc⟩, if_pos ⟨hjn, hiff.mp hc⟩]
            · rw [if_neg (by rintro ⟨-, h⟩; exact hc h),
                if_neg (by rintro ⟨-, h⟩; exact hc (hiff.mpr h))]
      · rw [if_neg (by rintro ⟨h, -⟩; exact hjn h),
          if_neg (by rintro ⟨h, -⟩; exact hjn h)]

/-- The bit-reverse pass of `perform_fft` with the table built by
`init_fft` permutes an array of size `2 ^ m` by `bitRev m`. -/
theorem bitReversePermute_apply (m : ℕ) (d : ℕ → ℂ) (j : ℕ)
    (hj : j < 2 ^ m) :
    AudioProcessor.bitReversePermute (2 ^ m) (AudioProcessor.bitRevTable (2 ^ m)) d j =
      d (AudioProcessor.bitRev m j) := by
  have htbl : ∀ i, i < 2 ^ m →
      (AudioProcessor.bitRevTable (2 ^ m)).getD i 0 = AudioProcessor.bitRev m i := by
    intro i hi
    unfold AudioProcessor.bitRevTable
    rw [getD_range_map, if_pos hi, log2_two_pow]
  have h := foldSwaps_apply (2 ^ m)
    (fun i => (AudioProcessor.bitRevTable (2 ^ m)).getD i 0) d
    (fun i hi => by
      simp only
      rw [htbl i hi]
      exact bitRev_lt m i)
    (fun i hi => by
      simp only
      rw [htbl i hi, htbl _ (bitRev_lt m i)]
      exact bitRev_involution m i hi)
    j hj
  rw [← htbl j hj]
  exact h

/-!  ## C3 groundwork, part 3: one butterfly stage acts pointwise

Within one stage all butterflies touch pairwise disjoint index pairs, and
every pair is read before either side is written, so the nested in-place
loops compute, at each index, a value depending only on the stage's input
array. -/

theorem butterflyAux (tt : List ℂ) (step half base : ℕ) (d : ℕ → ℂ) :
    ∀ m, m ≤ half → ∀ p,
      ((List.range m).foldl
        (fun dd j =>
          let u := dd (base + j)
          let v := dd (base + j + half) * tt.getD (j * step) 0
          Function.update (Function.update dd (base + j) (u + v)) (base + j + half) (u - v))
        d) p =
      if base ≤ p ∧ p < base + m then
        d p + d (p + half) * tt.getD ((p - base) * step) 0
      else if base + half ≤ p ∧ p < base + half + m then
        d (p - half) - d p * tt.getD ((p - half - base) * step) 0
      else d p := by
  intro m
  induction m with
  | zero =>
    intro hm p
    rw [List.range_zero, List.foldl_nil, if_neg (by omega), if_neg (by omega)]
  | succ m ih =>
    intro hm p
    rw [List.range_succ, List.foldl_append, List.foldl_cons, List.foldl_nil]
    simp only
    have hmh : m < half := by omega
    have hDm : ((List.range m).foldl
        (fun dd j =>
          let u := dd (base + j)
          let v := dd (base + j + half) * tt.getD (j * step) 0
          Function.update (Function.update dd (base + j) (u + v)) (base + j + half) (u - v))
        d) (base + m) = d (base + m) := by
      rw [ih (by omega), if_neg (by omega), if_neg (by omega)]
    have hDmh : ((List.range m).foldl
        (fun dd j =>
          let u := dd (base + j)
          let v := dd (base + j + half) * tt.getD (j * step) 0
          Function.update (Function.update dd (base + j) (u + v)) (base + j + half) (u - v))
        d) (base + m + half) = d (base + m + half) := by
      rw [ih (by omega), if_neg (by omega), if_neg (by omega)]
    rw [Function.update_apply, Function.update_apply]
    by_cases hp1 : p = base + m + half
    · subst hp1
      rw [if_pos rfl, hDm, hDmh, if_neg (by omega), if_pos (by omega)]
      have e2 : base + m + half - half - base = m := by omega
      have e1 : base + m + half - half = base + m := by omega
      rw [e2, e1]
    · rw [if_neg hp1]
      by_cases hp2 : p = base + m
      · subst hp2
        rw [if_pos rfl, hDm, hDmh, if_pos (by omega)]
        have e1 : base + m - base = m := by omega
        rw [e1]
      · rw [if_neg hp2, ih (by omega)]
        by_cases hc1 : base ≤ p ∧ p < base + m
        · rw [if_pos hc1, if_pos (by omega)]
        · rw [if_neg hc1]
          by_cases hc2 : base + half ≤ p ∧ p < base + half + m
          · rw [if_pos hc2, if_neg (by omega), if_pos (by omega)]
          · rw [if_neg hc2, if_neg (by omega), if_neg (by omega)]

theorem butterfly_lo (tt : List ℂ) (step half base : ℕ) (d : ℕ → ℂ)
    (j : ℕ) (hj : j < half) :
    AudioProcessor.butterfly tt step half base d (base + j) =
      d (base + j) + d (base + j + half) * tt.getD (j * step) 0 := by
  unfold AudioProcessor.butterfly
  rw [butterflyAux tt step half base d half le_rfl, if_pos (by omega)]
  have e1 : base + j - base = j := by omega
  rw [e1]

theorem butterfly_hi (tt : List ℂ) (step half base : ℕ) (d : ℕ → ℂ)
    (j : ℕ) (hj : j < half) :
    AudioProcessor.butterfly tt step half base d (base + half + j) =
      d (base + j) - d (base + j + half) * tt.getD (j * step) 0 := by
  unfold AudioProcessor.butterfly
  rw [butterflyAux tt step half base d half le_rfl, if_neg (by omega),
    if_pos (by omega)]
  have e2 : base + half + j - half - base = j := by omega
  have e1 : base + half + j - half = base + j := by omega
  have e3 : base + half + j = base + j + half := by omega
  rw [e2, e1, e3]

theorem butterfly_out (tt : List ℂ) (step half base : ℕ) (d : ℕ → ℂ)
    (p : ℕ) (hp : p < base ∨ base + 2 * half ≤ p) :
    AudioProcessor.butterfly tt step half base d p = d p := by
  unfold AudioProcessor.butterfly
  rw [butterflyAux tt step half base d half le_rfl, if_neg (by omega),
    if_neg (by omega)]

theorem foldBlocks_untouched (tt : List ℂ) (step half len : ℕ)
    (hlen : len = 2 * half) (d : ℕ → ℂ) :
    ∀ q p, q * len ≤ p →
      ((List.range q).foldl
        (fun dd b => AudioProcessor.butterfly tt step half (b * len) dd) d) p = d p := by
  intro q
  induction q with
  | zero =>
    intro p hp
    rw [List.range_zero, List.foldl_nil]
  | succ q ih =>
    intro p hp
    rw [List.range_succ, List.foldl_append, List.foldl_cons, List.foldl_nil]
    rw [butterfly_out _ _ _ _ _ p (Or.inr (by
      have : (q + 1) * len = q * len + len := by ring
      omega))]
    exact ih p (by
      have : (q + 1) * len = q * len + len := by ring
      omega)

theorem foldBlocks_lo (tt : List ℂ) (step half len : ℕ)
    (hlen : len = 2 * half) (d : ℕ → ℂ) (b j : ℕ) (hj : j < half) :
    ∀ q, b < q →
      ((List.range q).foldl
        (fun dd bb => AudioProcessor.butterfly tt step half (bb * len) dd) d)
        (b * len + j) =
      d (b * len + j) + d (b * len + j + half) * tt.getD (j * step) 0 := by
  intro q
  induction q with
  | zero => omega
  | succ q ih =>
    intro hbq
    rw [List.range_succ, List.foldl_append, List.foldl_cons, List.foldl_nil]
    by_cases hqb : b = q
    · subst hqb
      rw [butterfly_lo _ _ _ _ _ j hj,
        foldBlocks_untouched tt step half len hlen d b (b * len + j)
          (Nat.le_add_right _ _),
        foldBlocks_untouched tt step half len hlen d b (b * len + j + half)
          (by omega)]
    · have hblt : b < q := by omega
      rw [butterfly_out _ _ _ _ _ _ (Or.inl (by
        have h1 : (b + 1) * len = b * len + len := by ring
        have h2 : b * len + len ≤ q * len := by
          have := Nat.mul_le_mul_right len (by omega : b + 1 ≤ q)
          omega
        omega))]
      exact ih hblt

theorem foldBlocks_hi (tt : List ℂ) (step half len : ℕ)
    (hlen : len = 2 * half) (d : ℕ → ℂ) (b j : ℕ) (hj : j < half) :
    ∀ q, b < q →
      ((List.range q).foldl
        (fun dd bb => AudioProcessor.butterfly tt step half (bb * len) dd) d)
        (b * len + half + j) =
      d (b * len + j) - d (b * len + j + half) * tt.getD (j * step) 0 := by
  intro q
  induction q with
  | zero => omega
  | succ q ih =>
    intro hbq
    rw [List.range_succ, List.foldl_append, List.foldl_cons, List.foldl_nil]
    by_cases hqb : b = q
    · subst hqb
      rw [butterfly_hi _ _ _ _ _ j hj,
        foldBlocks_untouched tt step half len hlen d b (b * len + j)
          (Nat.le_add_right _ _),
        foldBlocks_untouched tt step half len hlen d b (b * len + j + half)
          (by omega)]
    · have hblt : b < q := by omega
      rw [butterfly_out _ _ _ _ _ _ (Or.inl (by
        have h1 : (b + 1) * len = b * len + len := by ring
        have h2 : b * len + len ≤ q * len := by
          have := Nat.mul_le_mul_right len (by omega : b + 1 ≤ q)
          omega
        omega))]
      exact ih hblt

/-- The rising half of one `perform_fft` stage. -/
theorem fftStage_lo (n len : ℕ) (tt : List ℂ) (d : ℕ → ℂ) (b j half : ℕ)
    (hhalf : len = 2 * half) (hj : j < half) (hb : b < (n + len - 1) / len) :
    AudioProcessor.fftStage n len tt d (b * len + j) =
      d (b * len + j) + d (b * len + j + half) * tt.getD (j * (n / len)) 0 := by
  unfold AudioProcessor.fftStage
  have hdiv : len / 2 = half := by omega
  rw [hdiv]
  exact foldBlocks_lo tt (n / len) half len hhalf d b j hj _ hb

/-- The falling half of one `perform_fft` stage. -/
theorem fftStage_hi (n len : ℕ) (tt : List ℂ) (d : ℕ → ℂ) (b j half : ℕ)
    (hhalf : len = 2 * half) (hj : j < half) (hb : b < (n + len - 1) / len) :
    AudioProcessor.fftStage n len tt d (b * len + half + j) =
      d (b * len + j) - d (b * len + j + half) * tt.getD (j * (n / len)) 0 := by
  unfold AudioProcessor.fftStage
  have hdiv : len / 2 = half := by omega
  rw [hdiv]
  exact foldBlocks_hi tt (n / len) half len hhalf d b j hj _ hb

/-!  ## C3 groundwork, part 4: the trig table holds powers of the
primitive root -/

theorem trigTables_getD (n k : ℕ) (hk : k < n / 2) :
    (AudioProcessor.trigTables n).getD k 0 = twiddle n ^ k := by
  unfold AudioProcessor.trigTables
  rw [getD_range_map, if_pos hk]
  have h1 : (⟨Real.cos (-2 * Real.pi * k / n), Real.sin (-2 * Real.pi * k / n)⟩ : ℂ)
      = Complex.exp (((-2 * Real.pi * k / n : ℝ) : ℂ) * Complex.I) := by
    rw [Complex.mk_eq_add_mul_I, Complex.exp_mul_I, Complex.ofReal_cos,
      Complex.ofReal_sin]
  rw [h1]
  unfold twiddle
  rw [← Complex.exp_nat_mul]
  congr 1
  push_cast
  ring

theorem twiddle_sq (N : ℕ) (hN : N ≠ 0) : twiddle (2 * N) ^ 2 = twiddle N := by
  unfold twiddle
  rw [← Complex.exp_nat_mul]
  congr 1
  have hN' : (N : ℂ) ≠ 0 := Nat.cast_ne_zero.mpr hN
  push_cast
  field_simp
  ring

theorem twiddle_pow_self (N : ℕ) (hN : N ≠ 0) : twiddle N ^ N = 1 := by
  unfold twiddle
  rw [← Complex.exp_nat_mul]
  have hN' : (N : ℂ) ≠ 0 := Nat.cast_ne_zero.mpr hN
  have harg : (N : ℂ) * (-(2 * (Real.pi : ℂ) * Complex.I) / (N : ℂ)) =
      -(2 * (Real.pi : ℂ) * Complex.I) := by
    field_simp
    ring
  rw [harg, Complex.exp_neg, Complex.exp_two_pi_mul_I, inv_one]

theorem twiddle_pow_half (N : ℕ) (hN : N ≠ 0) : twiddle (2 * N) ^ N = -1 := by
  unfold twiddle
  rw [← Complex.exp_nat_mul]
  have hN' : (N : ℂ) ≠ 0 := Nat.cast_ne_zero.mpr hN
  have harg : (N : ℂ) * (-(2 * (Real.pi : ℂ) * Complex.I) / ((2 * N : ℕ) : ℂ)) =
      -((Real.pi : ℂ) * Complex.I) := by
    push_cast
    field_simp
    ring
  rw [harg, Complex.exp_neg, Complex.exp_pi_mul_I]
  norm_num

theorem twiddle_pow_step (n len step : ℕ) (hn : n ≠ 0) (hlen : len ≠ 0)
    (hstep : step * len = n) : twiddle n ^ step = twiddle len := by
  unfold twiddle
  rw [← Complex.exp_nat_mul]
  congr 1
  have hn' : (n : ℂ) ≠ 0 := Nat.cast_ne_zero.mpr hn
  have hlen' : (len : ℂ) ≠ 0 := Nat.cast_ne_zero.mpr hlen
  have hc : (step : ℂ) * (len : ℂ) = (n : ℂ) := by exact_mod_cast hstep
  field_simp
  linear_combination (2 * (Real.pi : ℂ) * Complex.I) * hc

/-!  ## C3 groundwork, part 5: splitting a sum over even and odd indices -/

theorem sum_range_even_odd (h : ℕ) (f : ℕ → ℂ) :
    ∑ t in Finset.range (2 * h), f t =
      ∑ u in Finset.range h, f (2 * u) + ∑ u in Finset.range h, f (2 * u + 1) := by
  induction h with
  | zero => simp
  | succ h ih =>
    have e : 2 * (h + 1) = 2 * h + 1 + 1 := by ring
    rw [e, Finset.sum_range_succ, Finset.sum_range_succ,
      Finset.sum_range_succ (fun u => f (2 * u)) h,
      Finset.sum_range_succ (fun u => f (2 * u + 1)) h, ih]
    ring

/-!  ## C3 groundwork, part 6: splitting a size-2N DFT into half-size DFTs -/

theorem twiddle_even_exp (s j u : ℕ) :
    twiddle (2 * 2 ^ s) ^ (j * (2 * u)) = twiddle (2 ^ s) ^ (j * u) := by
  have h1 : j * (2 * u) = 2 * (j * u) := by ring
  rw [h1, pow_mul, twiddle_sq (2 ^ s) (Nat.pos_pow_of_pos s (by norm_num)).ne']

theorem twiddle_odd_exp (s j u : ℕ) :
    twiddle (2 * 2 ^ s) ^ (j * (2 * u + 1)) =
      twiddle (2 * 2 ^ s) ^ j * twiddle (2 ^ s) ^ (j * u) := by
  have h1 : j * (2 * u + 1) = j + 2 * (j * u) := by ring
  rw [h1, pow_add, pow_mul, twiddle_sq (2 ^ s) (Nat.pos_pow_of_pos s (by norm_num)).ne']

theorem twiddle_hi_even_exp (s j u : ℕ) :
    twiddle (2 * 2 ^ s) ^ ((2 ^ s + j) * (2 * u)) = twiddle (2 ^ s) ^ (j * u) := by
  have h1 : (2 ^ s + j) * (2 * u) = 2 * 2 ^ s * u + 2 * (j * u) := by ring
  rw [h1, pow_add,
    pow_mul (twiddle (2 * 2 ^ s)) (2 * 2 ^ s) u,
    twiddle_pow_self (2 * 2 ^ s) (by positivity), one_pow, one_mul,
    pow_mul (twiddle (2 * 2 ^ s)) 2 (j * u),
    twiddle_sq (2 ^ s) (Nat.pos_pow_of_pos s (by norm_num)).ne']

theorem twiddle_hi_odd_exp (s j u : ℕ) :
    twiddle (2 * 2 ^ s) ^ ((2 ^ s + j) * (2 * u + 1)) =
      -(twiddle (2 * 2 ^ s) ^ j * twiddle (2 ^ s) ^ (j * u)) := by
  have h1 : (2 ^ s + j) * (2 * u + 1) =
      2 ^ s + (j + (2 * 2 ^ s * u + 2 * (j * u))) := by ring
  rw [h1, pow_add, pow_add, pow_add,
    twiddle_pow_half (2 ^ s) (Nat.pos_pow_of_pos s (by norm_num)).ne',
    pow_mul (twiddle (2 * 2 ^ s)) (2 * 2 ^ s) u,
    twiddle_pow_self (2 * 2 ^ s) (by positivity), one_pow,
    pow_mul (twiddle (2 * 2 ^ s)) 2 (j * u),
    twiddle_sq (2 ^ s) (Nat.pos_pow_of_pos s (by norm_num)).ne']
  ring

/-- The rising-half split of a size-`2·2^s` DFT sum with stride `K` into the
even and odd half sums. -/
theorem dft_split_lo (s : ℕ) (x : ℕ → ℂ) (R K j : ℕ) :
    ∑ t in Finset.range (2 * 2 ^ s), x (R + t * K) * twiddle (2 * 2 ^ s) ^ (j * t) =
      (∑ u in Finset.range (2 ^ s), x (R + u * (2 * K)) * twiddle (2 ^ s) ^ (j * u)) +
        twiddle (2 * 2 ^ s) ^ j *
          ∑ u in Finset.range (2 ^ s),
            x (R + K + u * (2 * K)) * twiddle (2 ^ s) ^ (j * u) := by
  rw [sum_range_even_odd]
  congr 1
  · apply Finset.sum_congr rfl
    intro u hu
    rw [twiddle_even_exp]
    congr 2
    ring
  · rw [Finset.mul_sum]
    apply Finset.sum_congr rfl
    intro u hu
    rw [twiddle_odd_exp]
    have e : R + (2 * u + 1) * K = R + K + u * (2 * K) := by ring
    rw [e]
    ring

/-- The falling-half split: offsetting the frequency index by `2^s` flips
the sign of the odd half sum. -/
theorem dft_split_hi (s : ℕ) (x : ℕ → ℂ) (R K j : ℕ) :
    ∑ t in Finset.range (2 * 2 ^ s),
        x (R + t * K) * twiddle (2 * 2 ^ s) ^ ((2 ^ s + j) * t) =
      (∑ u in Finset.range (2 ^ s), x (R + u * (2 * K)) * twiddle (2 ^ s) ^ (j * u)) -
        twiddle (2 * 2 ^ s) ^ j *
          ∑ u in Finset.range (2 ^ s),
            x (R + K + u * (2 * K)) * twiddle (2 ^ s) ^ (j * u) := by
  rw [sum_range_even_odd, sub_eq_add_neg]
  congr 1
  · apply Finset.sum_congr rfl
    intro u hu
    rw [twiddle_hi_even_exp]
    congr 2
    ring
  · rw [Finset.mul_sum, ← Finset.sum_neg_distrib]
    apply Finset.sum_congr rfl
    intro u hu
    rw [twiddle_hi_odd_exp]
    have e : R + (2 * u + 1) * K = R + K + u * (2 * K) := by ring
    rw [e]
    ring

/-!  ## C3: the staged butterfly schedule computes the DFT

The invariant: after the bit-reverse permutation and `s` butterfly stages,
block `b` of size `2^s` holds the size-`2^s` DFT of the input subsequence
with stride `2^(m-s)` starting at `bitRev (m-s) b`. -/

theorem fftStage_advances (m s r : ℕ) (hsm : s < m) (hr : m - s = r + 1)
    (x d : ℕ → ℂ)
    (hd : ∀ b, b < 2 ^ (m - s) → ∀ j, j < 2 ^ s →
      d (b * 2 ^ s + j) =
        ∑ t in Finset.range (2 ^ s),
          x (AudioProcessor.bitRev (m - s) b + t * 2 ^ (m - s)) *
            twiddle (2 ^ s) ^ (j * t)) :
    ∀ b, b < 2 ^ r → ∀ j, j < 2 ^ (s + 1) →
      AudioProcessor.fftStage (2 ^ m) (2 ^ (s + 1))
          (AudioProcessor.trigTables (2 ^ m)) d (b * 2 ^ (s + 1) + j) =
        ∑ t in Finset.range (2 ^ (s + 1)),
          x (AudioProcessor.bitRev r b + t * 2 ^ r) *
            twiddle (2 ^ (s + 1)) ^ (j * t) := by
  intro b hbms j hj
  have hpow_ms : (2 : ℕ) ^ (m - s) = 2 * 2 ^ r := by
    rw [hr, pow_succ']
  have hlen2 : (2 : ℕ) ^ (s + 1) = 2 * 2 ^ s := pow_succ' 2 s
  have hne_m : (2 : ℕ) ^ m ≠ 0 := (Nat.pos_pow_of_pos m (by norm_num)).ne'
  have hblocks : (2 ^ m + 2 ^ (s + 1) - 1) / 2 ^ (s + 1) = 2 ^ r := by
    have hprod : (2 : ℕ) ^ m = 2 ^ (s + 1) * 2 ^ r := by
      rw [← pow_add]
      congr 1
      omega
    have hpos1 : (0 : ℕ) < 2 ^ (s + 1) := Nat.pos_pow_of_pos _ (by norm_num)
    rw [hprod, Nat.add_sub_assoc (by omega), Nat.mul_add_div hpos1,
      Nat.div_eq_of_lt (by omega), Nat.add_zero]
  have hstepval : (2 : ℕ) ^ m / 2 ^ (s + 1) = 2 ^ r := by
    have hms1 : m - (s + 1) = r := by omega
    rw [Nat.pow_div (by omega) (by norm_num), hms1]
  have hb' : b < (2 ^ m + 2 ^ (s + 1) - 1) / 2 ^ (s + 1) := by
    rw [hblocks]
    exact hbms
  have hb2 : 2 * b < 2 ^ (m - s) := by
    rw [hpow_ms]
    omega
  have hb21 : 2 * b + 1 < 2 ^ (m - s) := by
    rw [hpow_ms]
    omega
  have hbitA : AudioProcessor.bitRev (m - s) (2 * b) =
      AudioProcessor.bitRev r b := by
    rw [hr, bitRev_succ_lo]
    have h1 : 2 * b % 2 = 0 := by omega
    have h2 : 2 * b / 2 = b := by omega
    rw [h1, h2, zero_mul, zero_add]
  have hbitB : AudioProcessor.bitRev (m - s) (2 * b + 1) =
      2 ^ r + AudioProcessor.bitRev r b := by
    rw [hr, bitRev_succ_lo]
    have h1 : (2 * b + 1) % 2 = 1 := by omega
    have h2 : (2 * b + 1) / 2 = b := by omega
    rw [h1, h2, one_mul]
  have hstep_mul : (2 : ℕ) ^ r * (2 * 2 ^ s) = 2 ^ m := by
    rw [← hlen2, ← pow_add]
    congr 1
    omega
  have hhalfdiv : (2 : ℕ) ^ m / 2 = 2 ^ (m - 1) := by
    have h := Nat.pow_div (x := 2) (by omega : 1 ≤ m) (by norm_num)
    simpa using h
  have hKpos : (0 : ℕ) < 2 ^ r := Nat.pos_pow_of_pos _ (by norm_num)
  rcases lt_or_ge j (2 ^ s) with hjlo | hjhi
  · -- rising half of the stage
    have hbnd : j * 2 ^ r < 2 ^ m / 2 := by
      rw [hhalfdiv]
      calc j * 2 ^ r < 2 ^ s * 2 ^ r := (Nat.mul_lt_mul_right hKpos).mpr hjlo
        _ = 2 ^ (m - 1) := by
            rw [← pow_add]
            congr 1
            omega
    have e1 : b * 2 ^ (s + 1) + j = 2 * b * 2 ^ s + j := by
      rw [hlen2]
      ring
    have ehi : 2 * b * 2 ^ s + j + 2 ^ s = (2 * b + 1) * 2 ^ s + j := by
      ring
    rw [fftStage_lo (2 ^ m) (2 ^ (s + 1)) _ _ b j (2 ^ s) hlen2 hjlo hb',
      hstepval, trigTables_getD (2 ^ m) _ hbnd, e1, ehi,
      hd (2 * b) hb2 j hjlo,
      hd (2 * b + 1) hb21 j hjlo]
    have hT : twiddle (2 ^ m) ^ (j * 2 ^ r) = twiddle (2 * 2 ^ s) ^ j := by
      rw [mul_comm j, pow_mul,
        twiddle_pow_step (2 ^ m) (2 * 2 ^ s) (2 ^ r) hne_m
          (by positivity) hstep_mul]
    rw [hT, hlen2,
      dft_split_lo s x (AudioProcessor.bitRev r b) (2 ^ r) j]
    congr 1
    · apply Finset.sum_congr rfl
      intro t ht
      rw [hbitA, hpow_ms]
    · rw [mul_comm]
      congr 1
      apply Finset.sum_congr rfl
      intro t ht
      rw [hbitB, hpow_ms]
      congr 2
      ring
  · -- falling half of the stage
    obtain ⟨jj, hjj⟩ : ∃ jj, j = 2 ^ s + jj := ⟨j - 2 ^ s, by omega⟩
    have hj2 : jj < 2 ^ s := by
      rw [hlen2] at hj
      omega
    have hbnd : jj * 2 ^ r < 2 ^ m / 2 := by
      rw [hhalfdiv]
      calc jj * 2 ^ r < 2 ^ s * 2 ^ r :=
            (Nat.mul_lt_mul_right hKpos).mpr hj2
        _ = 2 ^ (m - 1) := by
            rw [← pow_add]
            congr 1
            omega
    have ep : b * 2 ^ (s + 1) + j = b * 2 ^ (s + 1) + 2 ^ s + jj := by
      omega
    have e1 : b * 2 ^ (s + 1) + jj = 2 * b * 2 ^ s + jj := by
      rw [hlen2]
      ring
    have ehi : 2 * b * 2 ^ s + jj + 2 ^ s = (2 * b + 1) * 2 ^ s + jj := by
      ring
    rw [ep, fftStage_hi (2 ^ m) (2 ^ (s + 1)) _ _ b jj (2 ^ s)
        hlen2 hj2 hb',
      hstepval, trigTables_getD (2 ^ m) _ hbnd, e1, ehi,
      hd (2 * b) hb2 jj hj2,
      hd (2 * b + 1) hb21 jj hj2]
    have hT : twiddle (2 ^ m) ^ (jj * 2 ^ r) = twiddle (2 * 2 ^ s) ^ jj := by
      rw [mul_comm jj, pow_mul,
        twiddle_pow_step (2 ^ m) (2 * 2 ^ s) (2 ^ r) hne_m
          (by positivity) hstep_mul]
    rw [hT, hjj, hlen2,
      dft_split_hi s x (AudioProcessor.bitRev r b) (2 ^ r) jj]
    rw [sub_eq_add_neg, sub_eq_add_neg]
    congr 1
    · apply Finset.sum_congr rfl
      intro t ht
      rw [hbitA, hpow_ms]
    · congr 1
      rw [mul_comm]
      congr 1
      apply Finset.sum_congr rfl
      intro t ht
      rw [hbitB, hpow_ms]
      congr 2
      ring

theorem fftStages_invariant (m : ℕ) (x : ℕ → ℂ) :
    ∀ s, s ≤ m → ∀ b, b < 2 ^ (m - s) → ∀ j, j < 2 ^ s →
      ((List.range s).foldl
        (fun dd t => AudioProcessor.fftStage (2 ^ m) (2 ^ (t + 1))
          (AudioProcessor.trigTables (2 ^ m)) dd)
        (AudioProcessor.bitReversePermute (2 ^ m)
          (AudioProcessor.bitRevTable (2 ^ m)) x))
        (b * 2 ^ s + j) =
      ∑ t in Finset.range (2 ^ s),
        x (AudioProcessor.bitRev (m - s) b + t * 2 ^ (m - s)) *
          twiddle (2 ^ s) ^ (j * t) := by
  intro s
  induction s with
  | zero =>
    intro hs b hb j hj
    have hj0 : j = 0 := by omega
    subst hj0
    rw [List.range_zero, List.foldl_nil]
    have hb' : b < 2 ^ m := by simpa using hb
    have hpos : b * 2 ^ 0 + 0 = b := by simp
    rw [hpos, bitReversePermute_apply m x b hb']
    simp
  | succ s ih =>
    intro hs b hb j hj
    obtain ⟨r, hr⟩ : ∃ r, m - s = r + 1 := ⟨m - s - 1, by omega⟩
    have hms1 : m - (s + 1) = r := by omega
    rw [hms1] at hb
    rw [List.range_succ, List.foldl_append, List.foldl_cons, List.foldl_nil, hms1]
    exact fftStage_advances m s r (by omega) hr x _
      (fun b' hb' j' hj' => ih (by omega) b' hb' j' hj') b hb j hj


/-- Claim C3: on a power-of-two size `n_fft = 2 ^ m`, `perform_fft` run
with the tables built by `init_fft` overwrites the array with its discrete
Fourier transform: `output[k] = Σ_j input[j] · e^(-2 π i · j k / n)`. -/
theorem perform_fft_computes_dft (st : APState) (m : ℕ) (x : ℕ → ℂ) (k : ℕ)
    (hn : st.n_fft = 2 ^ m) (hk : k < 2 ^ m) :
    AudioProcessor.perform_fft st.n_fft
        (AudioProcessor.init_fft st).bit_reverse_table
        (AudioProcessor.init_fft st).trig_tables x k =
      ∑ j in Finset.range (2 ^ m),
        x j * Complex.exp (-(2 * (Real.pi : ℂ) * Complex.I) * (j * k) /
          ((2 ^ m : ℕ) : ℂ)) := by
  have hbrt : (AudioProcessor.init_fft st).bit_reverse_table =
      AudioProcessor.bitRevTable st.n_fft := rfl
  have htt : (AudioProcessor.init_fft st).trig_tables =
      AudioProcessor.trigTables st.n_fft := rfl
  rw [hbrt, htt, hn]
  unfold AudioProcessor.perform_fft
  rw [log2_two_pow]
  have h := fftStages_invariant m x m le_rfl 0
    (by simp) k hk
  rw [zero_mul, zero_add] at h
  rw [h]
  apply Finset.sum_congr rfl
  intro t ht
  have hidx : AudioProcessor.bitRev (m - m) 0 + t * 2 ^ (m - m) = t := by
    simp [AudioProcessor.bitRev, AudioProcessor.bitRevAux, Nat.sub_self]
  rw [hidx]
  congr 1
  unfold twiddle
  rw [← Complex.exp_nat_mul]
  congr 1
  push_cast
  ring

/-- Witness for C3: the size-4 FFT of the all-ones input at frequency 0,
through a processor state configured with `n_fft = 4`. -/
theorem perform_fft_computes_dft_witness :
    apC2state.n_fft = 2 ^ 2 ∧ (0 : ℕ) < 2 ^ 2 ∧
      AudioProcessor.perform_fft apC2state.n_fft
          (AudioProcessor.init_fft apC2state).bit_reverse_table
          (AudioProcessor.init_fft apC2state).trig_tables (fun _ => 1) 0 =
        ∑ j in Finset.range (2 ^ 2),
          (fun _ => (1 : ℂ)) j * Complex.exp (-(2 * (Real.pi : ℂ) * Complex.I) *
            (j * ((0 : ℕ) : ℂ)) / ((2 ^ 2 : ℕ) : ℂ)) :=
  ⟨by decide, by decide, by
    exact perform_fft_computes_dft apC2state 2 (fun _ => 1) 0 (by decide) (by decide)⟩

/-!  ## C1: size-mismatch rejection in process_frame -/

/-- Claim C1: a `process_frame` call whose input length differs from the
configured `hop_length` returns an empty result and leaves the whole
processor state — in particular the overlap buffer `previous_samples` —
unchanged. -/
theorem process_frame_size_mismatch (st : APState) (input : List ℝ)
    (h : input.length ≠ st.hop_length) :
    AudioProcessor.process_frame st input = (st, []) := by
  simp [AudioProcessor.process_frame, h]

/-- Witness for C1: the default-constructed processor expects 160 samples,
so the empty input is rejected with state intact. -/
theorem process_frame_size_mismatch_witness :
    ([] : List ℝ).length ≠ AudioProcessor.apInit.hop_length ∧
      AudioProcessor.process_frame AudioProcessor.apInit [] =
        (AudioProcessor.apInit, []) :=
  ⟨by decide, process_frame_size_mismatch AudioProcessor.apInit [] (by decide)⟩

/-!  ## C2: sliding-window bookkeeping of process_frame -/

theorem nextWindowBuffer_spec (st : APState) (input : List ℝ)
    (hlen : input.length = st.hop_length)
    (hol : st.previous_samples.length ≤ st.window_length)
    (hfill : st.window_length ≤ st.previous_samples.length + st.hop_length) :
    AudioProcessor.nextWindowBuffer st input =
      st.previous_samples ++
        input.take (st.window_length - st.previous_samples.length) := by
  apply List.ext_getElem
  · simp [AudioProcessor.nextWindowBuffer, hlen]
    omega
  · intro i h1 h2
    have hiwl : i < st.window_length := by
      simpa [AudioProcessor.nextWindowBuffer] using h1
    simp only [AudioProcessor.nextWindowBuffer, List.getElem_map, List.getElem_range]
    by_cases hi : i < st.previous_samples.length
    · rw [if_pos hi, List.getD_eq_getElem _ _ hi,
        List.getElem_append_left hi]
    · rw [if_neg hi, if_pos (by omega)]
      rw [List.getElem_append_right (Nat.le_of_not_lt hi)]
      rw [List.getElem_take]
      rw [List.getD_eq_getElem _ _ (by omega)]

theorem nextPreviousSamples_spec (st : APState) (wb : List ℝ)
    (hwb : wb.length = st.window_length) :
    AudioProcessor.nextPreviousSamples st wb =
      (wb.drop st.hop_length).take st.previous_samples.length ++
        List.replicate
          (st.previous_samples.length - (st.window_length - st.hop_length)) 0 := by
  apply List.ext_getElem
  · simp [AudioProcessor.nextPreviousSamples, hwb]
    omega
  · intro i h1 h2
    have hio : i < st.previous_samples.length := by
      simpa [AudioProcessor.nextPreviousSamples] using h1
    simp only [AudioProcessor.nextPreviousSamples, List.getElem_map, List.getElem_range]
    by_cases hi : st.hop_length + i < st.window_length
    · rw [if_pos hi,
        List.getElem_append_left (by simp [hwb]; omega)]
      rw [List.getElem_take, List.getElem_drop,
        List.getD_eq_getElem _ _ (by omega)]
    · rw [if_neg hi,
        List.getElem_append_right (by simp [hwb]; omega)]
      simp

/-- Claim C2: on a well-sized input, `process_frame` builds the transient
window buffer as the overlap buffer followed by the new samples (truncated
at `window_length`), and stores as the next overlap buffer the window
buffer's slice starting at offset `hop_length` of the overlap length,
zero-filled where that slice overruns the window buffer. -/
theorem process_frame_overlap_slide (st : APState) (input : List ℝ)
    (hlen : input.length = st.hop_length)
    (hol : st.previous_samples.length ≤ st.window_length)
    (hfill : st.window_length ≤ st.previous_samples.length + st.hop_length) :
    (AudioProcessor.process_frame st input).1.window_buffer =
      st.previous_samples ++
        input.take (st.window_length - st.previous_samples.length) ∧
    (AudioProcessor.process_frame st input).1.previous_samples =
      (((AudioProcessor.process_frame st input).1.window_buffer).drop
          st.hop_length).take st.previous_samples.length ++
        List.replicate
          (st.previous_samples.length - (st.window_length - st.hop_length)) 0 := by
  have hwbv : (AudioProcessor.process_frame st input).1.window_buffer =
      AudioProcessor.nextWindowBuffer st input := by
    simp [AudioProcessor.process_frame, hlen]
  have hpv : (AudioProcessor.process_frame st input).1.previous_samples =
      AudioProcessor.nextPreviousSamples st (AudioProcessor.nextWindowBuffer st input) := by
    simp [AudioProcessor.process_frame, hlen]
  refine ⟨?_, ?_⟩
  · rw [hwbv]
    exact nextWindowBuffer_spec st input hlen hol hfill
  · rw [hpv, hwbv]
    apply nextPreviousSamples_spec
    simp [AudioProcessor.nextWindowBuffer]

/-- Witness for C2 at the concrete state `apC2state` and input `[1, 2]`. -/
theorem process_frame_overlap_slide_witness :
    ([(1 : ℝ), 2]).length = apC2state.hop_length ∧
    apC2state.previous_samples.length ≤ apC2state.window_length ∧
    apC2state.window_length ≤
        apC2state.previous_samples.length + apC2state.hop_length ∧
    ((AudioProcessor.process_frame apC2state [1, 2]).1.window_buffer =
      apC2state.previous_samples ++
        ([(1 : ℝ), 2]).take
          (apC2state.window_length - apC2state.previous_samples.length) ∧
    (AudioProcessor.process_frame apC2state [1, 2]).1.previous_samples =
      (((AudioProcessor.process_frame apC2state [1, 2]).1.window_buffer).drop
          apC2state.hop_length).take apC2state.previous_samples.length ++
        List.replicate
          (apC2state.previous_samples.length -
            (apC2state.window_length - apC2state.hop_length)) 0) :=
  ⟨by decide, by decide, by decide,
    process_frame_overlap_slide apC2state [1, 2] (by decide) (by decide) (by decide)⟩

/-!  ## C5: the context window is bounded by context_size -/

theorem trimLoop_eq_drop (fb : List (List ℚ)) (cs : ℕ) :
    LipSyncContext.trimLoop fb cs = fb.drop (fb.length - cs) := by
  induction fb, cs using LipSyncContext.trimLoop.induct with
  | case1 fb cs h ih =>
    rw [LipSyncContext.trimLoop, dif_pos h, ih]
    rw [List.drop_tail]
    congr 1
    simp only [List.length_tail]
    omega
  | case2 fb cs h =>
    rw [LipSyncContext.trimLoop, dif_neg h]
    have h0 : fb.length - cs = 0 := by omega
    simp [h0]

theorem hopLoop_fb_le {σ : Type} (pf : σ → List ℚ → σ × List ℚ) (cs : ℕ)
    (audio : List ℚ) (fb : List (List ℚ)) (ps : σ) (added : Bool)
    (hfb : fb.length ≤ cs) :
    (LipSyncContext.hopLoop pf cs audio fb ps added).2.1.length ≤ cs := by
  induction audio, fb, ps, added using LipSyncContext.hopLoop.induct pf cs with
  | case1 audio fb ps added h pr pushed fb2 ih =>
    rw [LipSyncContext.hopLoop, dif_pos h]
    refine ih ?_
    have hp : pushed.1.length ≤ fb.length + 1 := by
      show (if 0 < pr.2.length then (fb ++ [pr.2], true) else (fb, added)).1.length ≤
        fb.length + 1
      by_cases h0 : 0 < pr.2.length <;> simp [h0]
    show (if cs < pushed.1.length then pushed.1.tail else pushed.1).length ≤ cs
    by_cases he : cs < pushed.1.length
    · rw [if_pos he]
      simp only [List.length_tail]
      omega
    · rw [if_neg he]
      omega
  | case2 audio fb ps added h =>
    rw [LipSyncContext.hopLoop, dif_neg h]
    exact hfb

theorem resampleAndPush_untouched {σ : Type} (st : LCState σ)
    (input : List ℚ) (source_rate : ℕ) :
    (LipSyncContext.resampleAndPush st input source_rate).feature_buffer =
        st.feature_buffer ∧
      (LipSyncContext.resampleAndPush st input source_rate).context_size =
        st.context_size ∧
      (LipSyncContext.resampleAndPush st input source_rate).model_present =
        st.model_present ∧
      (LipSyncContext.resampleAndPush st input source_rate).proc = st.proc := by
  unfold LipSyncContext.resampleAndPush
  split
  · simp
  · split <;> simp

/-- The bound carried through every caller operation. -/
theorem stepOp_preserves_bound {σ : Type} (pf : σ → List ℚ → σ × List ℚ)
    (run : List ℚ → List ℚ) (rp : σ → σ) (st : LCState σ) (op : LipSyncContext.LCOp)
    (h : st.feature_buffer.length ≤ st.context_size) :
    (LipSyncContext.stepOp pf run rp st op).feature_buffer.length ≤
      (LipSyncContext.stepOp pf run rp st op).context_size := by
  cases op with
  | processOp input sr =>
    simp only [LipSyncContext.stepOp]
    unfold LipSyncContext.process
    split
    · exact h
    · split
      · exact h
      · simp only
        obtain ⟨h1, h2, h3, h4⟩ := resampleAndPush_untouched st
          (input.map fun p => (p.1 + p.2) * (1 / 2)) sr
        rw [h2, h1]
        exact hopLoop_fb_le pf st.context_size _ _ _ _ (h1 ▸ h2 ▸ (by rw [h1, h2]; exact h))
  | setContextSizeOp n =>
    simp only [LipSyncContext.stepOp, LipSyncContext.set_context_size,
      trimLoop_eq_drop, List.length_drop]
    omega
  | resetOp =>
    simp [LipSyncContext.stepOp, LipSyncContext.lcReset]
  | loadModelOp success =>
    cases success with
    | false => simpa [LipSyncContext.stepOp, LipSyncContext.load_model] using h
    | true => simp [LipSyncContext.stepOp, LipSyncContext.load_model,
        LipSyncContext.lcReset]

/-- Claim C5: along every sequence of caller operations the context window
holds at most `context_size` frames when each call returns — the hop loop
evicts as it appends, no matter how many hops one `process` call drains —
and `set_context_size` immediately evicts from the front, keeping exactly
the newest frames that fit. -/
theorem context_window_bounded {σ : Type} (pf : σ → List ℚ → σ × List ℚ)
    (run : List ℚ → List ℚ) (rp : σ → σ) (ps : σ) :
    (∀ ops : List LipSyncContext.LCOp,
      (LipSyncContext.runOps pf run rp ps ops).feature_buffer.length ≤
        (LipSyncContext.runOps pf run rp ps ops).context_size) ∧
    (∀ (st : LCState σ) (n : ℕ),
      (LipSyncContext.set_context_size st n).feature_buffer =
        st.feature_buffer.drop (st.feature_buffer.length - n)) := by
  constructor
  · intro ops
    unfold LipSyncContext.runOps
    have hinit : (LipSyncContext.lcInit ps).feature_buffer.length ≤
        (LipSyncContext.lcInit ps).context_size := by
      simp [LipSyncContext.lcInit]
    generalize LipSyncContext.lcInit ps = st at hinit ⊢
    induction ops generalizing st with
    | nil => exact hinit
    | cons op rest ih =>
      exact ih _ (stepOp_preserves_bound pf run rp st op hinit)
  · intro st n
    simp [LipSyncContext.set_context_size, trimLoop_eq_drop]

/-!  ## C4: the resampler's carried fractional phase

The claim asserts the carry always lands in `[0, ratio)` and that the
`if (resample_fraction < 0) resample_fraction += ratio` guard is dead code.
Both parts are false: the loop exits with `current_pos` in
`[count - 1, count - 1 + ratio)`, so the pre-guard carry
`current_pos - count` lies in `[-1, ratio - 1)` and is negative whenever the
loop lands inside `[count - 1, count)` — always, when upsampling
(`ratio < 1`).  The guard then fires, and for `ratio < 1` even the
post-guard carry stays negative.  What does hold is the weaker invariant
`min 0 (ratio - 1) ≤ carry < ratio`.
-/

theorem resampleLoop_final_pos (rq limit : ℚ) (input : List ℚ) (pos : ℚ)
    (h2 : 0 < rq) :
    (pos < limit →
      limit ≤ (LipSyncContext.resampleLoop rq limit input pos).1 ∧
        (LipSyncContext.resampleLoop rq limit input pos).1 < limit + rq) ∧
    (limit ≤ pos → (LipSyncContext.resampleLoop rq limit input pos).1 = pos) := by
  induction pos using LipSyncContext.resampleLoop.induct rq limit input with
  | case1 pos h ih =>
    rw [LipSyncContext.resampleLoop, dif_pos h]
    constructor
    · intro hlt
      show limit ≤ (LipSyncContext.resampleLoop rq limit input (pos + rq)).1 ∧
        (LipSyncContext.resampleLoop rq limit input (pos + rq)).1 < limit + rq
      rcases lt_or_ge (pos + rq) limit with hc | hc
      · exact (ih.1 hc).imp id (fun hx => hx)
      · rw [ih.2 hc]
        exact ⟨hc, by linarith [h.1]⟩
    · intro hge
      exact absurd h.1 (not_lt.mpr hge)
  | case2 pos h =>
    rw [LipSyncContext.resampleLoop, dif_neg h]
    have hge : limit ≤ pos := by
      by_contra hx
      exact h ⟨lt_of_not_ge hx, h2⟩
    exact ⟨fun hlt => absurd hlt (not_lt.mpr hge), fun _ => rfl⟩

/-- Counterexample to C4 as stated: upsampling 8000 Hz → 16000 Hz (ratio
1/2) with a two-sample chunk from a zero carried phase.  The loop stops at
`current_pos = 1`, the pre-guard carry is `1 - 2 = -1`, the "unreachable"
guard fires, and the carried-out phase is `-1/2` — negative, hence outside
`[0, ratio)`. -/
theorem resample_fraction_negative_counterexample :
    (LipSyncContext.resampleAndPush (LipSyncContext.lcInit ()) [0, 0]
        8000).resample_fraction = -(1 / 2) ∧
      (-(1 / 2) : ℚ) < 0 := by
  constructor
  · rw [LipSyncContext.resampleAndPush]
    norm_num
    rw [LipSyncContext.resampleLoop]
    norm_num [LipSyncContext.lcInit]
    rw [LipSyncContext.resampleLoop]
    norm_num
    rw [LipSyncContext.resampleLoop]
    norm_num
  · norm_num

/-- Claim C4, amended: for a resampling call (source rate positive and
different from the 16 kHz target) on a non-empty chunk, the carried
fractional phase satisfies the weaker invariant
`min 0 (ratio - 1) ≤ phase < ratio` — it is preserved by every call, but
the phase can be negative (whenever the guard fires with `ratio < 1`), so
the claimed interval `[0, ratio)` and the claimed unreachability of the
guard both fail. -/
theorem resample_fraction_invariant {σ : Type} (st : LCState σ)
    (input : List ℚ) (source_rate : ℕ) (hsr : source_rate ≠ 16000)
    (hpos : 0 < source_rate) (hne : input ≠ [])
    (hlo : min 0 ((source_rate : ℚ) / 16000 - 1) ≤ st.resample_fraction)
    (hhi : st.resample_fraction < (source_rate : ℚ) / 16000) :
    min 0 ((source_rate : ℚ) / 16000 - 1) ≤
        (LipSyncContext.resampleAndPush st input source_rate).resample_fraction ∧
      (LipSyncContext.resampleAndPush st input source_rate).resample_fraction <
        (source_rate : ℚ) / 16000 := by
  have hrq : (0 : ℚ) < (source_rate : ℚ) / 16000 := by
    apply div_pos
    · exact_mod_cast hpos
    · norm_num
  set rq : ℚ := (source_rate : ℚ) / 16000 with hrqdef
  have hcount : 1 ≤ input.length := List.length_pos.mpr hne
  have hcountq : (1 : ℚ) ≤ (input.length : ℚ) := by exact_mod_cast hcount
  have hlen0 : input.length ≠ 0 := by omega
  rw [LipSyncContext.resampleAndPush, if_neg (by simpa using hlen0), if_pos hsr]
  simp only
  set limit : ℚ := (input.length : ℚ) - 1 with hlim
  set q : ℚ := (LipSyncContext.resampleLoop rq limit input st.resample_fraction).1 with hq
  have hqb : -1 ≤ q - (input.length : ℚ) ∧ q - (input.length : ℚ) < rq - 1 := by
    have hmain := resampleLoop_final_pos rq limit input st.resample_fraction hrq
    rcases lt_or_ge st.resample_fraction limit with hc | hc
    · obtain ⟨hl, hu⟩ := hmain.1 hc
      constructor
      · rw [hlim] at hl
        linarith
      · rw [hlim] at hu
        linarith
    · rw [hmain.2 hc] at hq
      constructor
      · rw [hq, hlim] at *
        linarith
      · rw [hq]
        linarith
  by_cases hneg : q - (input.length : ℚ) < 0
  · rw [if_pos hneg]
    constructor
    · have : rq - 1 ≤ q - (input.length : ℚ) + rq := by linarith [hqb.1]
      exact le_trans (min_le_right _ _) this
    · linarith
  · rw [if_neg hneg]
    push_neg at hneg
    constructor
    · exact le_trans (min_le_left _ _) hneg
    · linarith [hqb.2, hrq]

/-- Witness for the amended C4 at the counterexample's own configuration:
zero entering phase, ratio 1/2, two samples. -/
theorem resample_fraction_invariant_witness :
    (8000 : ℕ) ≠ 16000 ∧ (0 : ℕ) < 8000 ∧ ([(0 : ℚ), 0]) ≠ [] ∧
      (min 0 ((8000 : ℚ) / 16000 - 1) ≤
          (LipSyncContext.resampleAndPush (LipSyncContext.lcInit ()) [0, 0]
            8000).resample_fraction ∧
        (LipSyncContext.resampleAndPush (LipSyncContext.lcInit ()) [0, 0]
            8000).resample_fraction < (8000 : ℚ) / 16000) :=
  ⟨by decide, by decide, by decide,
    resample_fraction_invariant (LipSyncContext.lcInit ()) [0, 0] 8000
      (by decide) (by decide) (by decide) (by norm_num [LipSyncContext.lcInit])
      (by norm_num [LipSyncContext.lcInit])⟩

/-!  ## C8: the filter bank equals the reference definition

`specMelBank` below is written from the specification's words (n_mels + 2
evenly spaced mel points, `(n_fft + 1) · hz / sample_rate` bins, triangular
weights with the boundary `j == center` in the rising branch) and compared
against the embedding of the source loops. -/

theorem binPoint_eq_specBin (sr n_fft n_mels : ℕ) (f_min f_max : ℝ) (i : ℕ) :
    AudioProcessor.binPoint sr n_fft n_mels f_min f_max i =
      specBin sr n_fft n_mels f_min f_max i := by
  unfold AudioProcessor.binPoint specBin AudioProcessor.melPoint
  congr 2
  ring

/-- Claim C8: for every configuration the built mel filter bank equals the
reference definition from the spec — same evenly spaced mel points, the
same `n_fft + 1` bin scaling, and the same triangular branches with
`j == center` counted only in the rising branch. -/
theorem mel_filter_bank_matches_reference (sr n_fft n_mels : ℕ)
    (f_min f_max : ℝ) :
    AudioProcessor.melFilterBank sr n_fft n_mels f_min f_max =
      specMelBank sr n_fft n_mels f_min f_max := by
  have hw : ∀ i j : ℕ,
      AudioProcessor.melWeight sr n_fft n_mels f_min f_max i j =
        specWeight sr n_fft n_mels f_min f_max i j := by
    intro i j
    unfold AudioProcessor.melWeight specWeight
    simp only [binPoint_eq_specBin, ge_iff_le, gt_iff_lt]
  simp only [AudioProcessor.melFilterBank, specMelBank, hw]

/-!  ## C7: zero-width filter intervals divide by zero

The claim asserts a guard ("a zero-width interval contributes zero weight
on that side, and no division by zero is performed").  The source has no
such guard: the branch `if (j >= left && j <= center)` evaluates
`(j - left) / (center - left)` even when `center == left`, a division by
zero (NaN on the actual float code whenever an integer bin sits on the
degenerate interval; 0 under the real-division convention used here). -/

/-- In the configuration `sample_rate 16000, n_fft 1024, n_mels 1,
f_min = f_max = 0` every bin position is `0`. -/
theorem binPoint_zeroCfg (i : ℕ) :
    AudioProcessor.binPoint 16000 1024 1 0 0 i = 0 := by
  simp [AudioProcessor.binPoint, AudioProcessor.melPoint, AudioProcessor.hz_to_mel,
    AudioProcessor.mel_to_hz]

/-- Counterexample to C7 as stated: with `f_min = f_max = 0` every filter
interval has zero width, bin `j = 0` satisfies the rising-branch condition
`j >= left && j <= center`, and the branch's denominator
`center - left` is zero — the build does perform a division by zero. -/
theorem mel_filter_zero_width_counterexample :
    AudioProcessor.binPoint 16000 1024 1 0 0 1 =
        AudioProcessor.binPoint 16000 1024 1 0 0 0 ∧
      melBankHitsZeroDivision 16000 1024 1 0 0 := by
  refine ⟨by rw [binPoint_zeroCfg, binPoint_zeroCfg], ?_⟩
  refine ⟨0, by norm_num, 0, by norm_num, Or.inl ⟨⟨?_, ?_⟩, ?_⟩⟩
  · rw [binPoint_zeroCfg]
    norm_num
  · rw [binPoint_zeroCfg]
    norm_num
  · rw [binPoint_zeroCfg, binPoint_zeroCfg]
    ring

/-- Claim C7, amended: the source has no zero-width guard.  Whenever a
filter's rising interval is degenerate (`center = left`) and an integer bin
satisfies the branch condition, building the bank evaluates that branch's
quotient with a zero denominator (`melBankHitsZeroDivision` holds; on the
float code this is `0/0 = NaN`).  Under the real-division convention
(`x / 0 = 0`) the stored entry is `0`. -/
theorem mel_weight_degenerate (sr n_fft n_mels : ℕ) (f_min f_max : ℝ)
    (i j : ℕ) (hi : i < n_mels) (hj : j < n_fft / 2 + 1)
    (hbr : (j : ℝ) ≥ AudioProcessor.binPoint sr n_fft n_mels f_min f_max i ∧
      (j : ℝ) ≤ AudioProcessor.binPoint sr n_fft n_mels f_min f_max (i + 1))
    (hzw : AudioProcessor.binPoint sr n_fft n_mels f_min f_max (i + 1) =
      AudioProcessor.binPoint sr n_fft n_mels f_min f_max i) :
    melBankHitsZeroDivision sr n_fft n_mels f_min f_max ∧
      AudioProcessor.melWeight sr n_fft n_mels f_min f_max i j = 0 := by
  constructor
  · exact ⟨i, hi, j, hj, Or.inl ⟨hbr, by rw [hzw]; ring⟩⟩
  · unfold AudioProcessor.melWeight
    rw [if_pos hbr, hzw, sub_self, div_zero]

/-- Witness for the amended C7 at the degenerate configuration
`f_min = f_max = 0`, filter 0, bin 0. -/
theorem mel_weight_degenerate_witness :
    (0 : ℕ) < 1 ∧ (0 : ℕ) < 1024 / 2 + 1 ∧
      ((0 : ℕ) ≥ AudioProcessor.binPoint 16000 1024 1 0 0 0 ∧
        ((0 : ℕ) : ℝ) ≤ AudioProcessor.binPoint 16000 1024 1 0 0 1) ∧
      AudioProcessor.binPoint 16000 1024 1 0 0 1 =
        AudioProcessor.binPoint 16000 1024 1 0 0 0 ∧
      (melBankHitsZeroDivision 16000 1024 1 0 0 ∧
        AudioProcessor.melWeight 16000 1024 1 0 0 0 0 = 0) :=
  ⟨by decide, by decide,
    ⟨by simp [binPoint_zeroCfg], by simp [binPoint_zeroCfg]⟩,
    by simp [binPoint_zeroCfg],
    mel_weight_degenerate 16000 1024 1 0 0 0 0 (by decide) (by decide)
      ⟨by simp [binPoint_zeroCfg], by simp [binPoint_zeroCfg]⟩
      (by simp [binPoint_zeroCfg])⟩

/-!  ## C9: what the configuration setters recompute

Each setter recomputes exactly the derived values that depend on the field
it mutates, but only `set_hop_length` and `set_window_length` call
`reset()`; the other four setters leave the overlap buffer untouched, so
the claim's "transient overlap state has been reset" part fails. -/

/-- Counterexample to C9 as stated: process one non-zero frame (the overlap
buffer then holds the sample 5), call `set_sample_rate` — the overlap
buffer still holds 5, it was not zero-filled, because `set_sample_rate`
only rebuilds the filter bank and never calls `reset()`. -/
theorem set_sample_rate_keeps_overlap_counterexample :
    (AudioProcessor.set_sample_rate
        (AudioProcessor.process_frame apC9base [5]).1 8000).previous_samples =
      [(5 : ℝ)] ∧ (5 : ℝ) ≠ 0 := by
  constructor
  · have hfr : (AudioProcessor.process_frame apC9base [5]).1.previous_samples =
        [(5 : ℝ)] := by
      have hlen : ([(5 : ℝ)]).length = apC9base.hop_length := by decide
      simp only [AudioProcessor.process_frame, if_neg (by decide :
        ¬([(5 : ℝ)]).length ≠ apC9base.hop_length)]
      show AudioProcessor.nextPreviousSamples apC9base
        (AudioProcessor.nextWindowBuffer apC9base [5]) = [(5 : ℝ)]
      simp [AudioProcessor.nextPreviousSamples, AudioProcessor.nextWindowBuffer,
        apC9base, List.range_succ]
    simp [AudioProcessor.set_sample_rate, AudioProcessor.init_mel_filter_bank, hfr]
  · norm_num

set_option maxRecDepth 4000 in
/-- One shared fact: the default-constructed processor is consistent. -/
theorem apInit_consistent : APConsistent AudioProcessor.apInit := by
  refine ⟨?_, ?_, ?_, ?_, ?_, ?_⟩ <;>
    simp [AudioProcessor.apInit, AudioProcessor.reset, AudioProcessor.init_mel_filter_bank,
      AudioProcessor.init_fft, AudioProcessor.init_window]

/-- Claim C9, amended: every setter recomputes exactly the derived values
that depend on the mutated field — so a consistent state stays consistent
with the new configuration — but the transient overlap buffer is reset
(zero-filled at the size derived from the new configuration) only by
`set_hop_length` and `set_window_length`; `set_sample_rate`,
`set_fft_size`, `set_mel_bands` and `set_frequency_range` leave it exactly
as it was. -/
theorem setters_recompute_derived (st : APState) (h : APConsistent st) :
    (∀ r : ℕ, APConsistent (AudioProcessor.set_sample_rate st r) ∧
      (AudioProcessor.set_sample_rate st r).previous_samples = st.previous_samples) ∧
    (∀ s : ℕ, APConsistent (AudioProcessor.set_fft_size st s) ∧
      (AudioProcessor.set_fft_size st s).previous_samples = st.previous_samples) ∧
    (∀ l : ℕ, APConsistent (AudioProcessor.set_hop_length st l) ∧
      (AudioProcessor.set_hop_length st l).previous_samples =
        List.replicate (st.window_length - l) 0) ∧
    (∀ l : ℕ, APConsistent (AudioProcessor.set_window_length st l) ∧
      (AudioProcessor.set_window_length st l).previous_samples =
        List.replicate (l - st.hop_length) 0) ∧
    (∀ b : ℕ, APConsistent (AudioProcessor.set_mel_bands st b) ∧
      (AudioProcessor.set_mel_bands st b).previous_samples = st.previous_samples) ∧
    (∀ lo hi : ℝ, APConsistent (AudioProcessor.set_frequency_range st lo hi) ∧
      (AudioProcessor.set_frequency_range st lo hi).previous_samples =
        st.previous_samples) := by
  obtain ⟨hw, hb, ht, hm, hp, hwb⟩ := h
  refine ⟨?_, ?_, ?_, ?_, ?_, ?_⟩
  · intro r
    exact ⟨⟨hw, hb, ht, rfl, hp, hwb⟩, rfl⟩
  · intro s
    exact ⟨⟨hw, rfl, rfl, rfl, hp, hwb⟩, rfl⟩
  · intro l
    refine ⟨⟨hw, hb, ht, hm, ?_, hwb⟩, rfl⟩
    simp [AudioProcessor.set_hop_length, AudioProcessor.reset]
  · intro l
    refine ⟨⟨rfl, hb, ht, hm, ?_, ?_⟩, rfl⟩
    · simp [AudioProcessor.set_window_length, AudioProcessor.reset,
        AudioProcessor.init_window]
    · simp [AudioProcessor.set_window_length, AudioProcessor.reset,
        AudioProcessor.init_window]
  · intro b
    exact ⟨⟨hw, hb, ht, rfl, hp, hwb⟩, rfl⟩
  · intro lo hi
    exact ⟨⟨hw, hb, ht, rfl, hp, hwb⟩, rfl⟩

/-- Witness for the amended C9 at the default-constructed processor. -/
theorem setters_recompute_derived_witness :
    APConsistent AudioProcessor.apInit ∧
      (∀ r : ℕ, APConsistent (AudioProcessor.set_sample_rate AudioProcessor.apInit r) ∧
        (AudioProcessor.set_sample_rate AudioProcessor.apInit r).previous_samples =
          AudioProcessor.apInit.previous_samples) ∧
      (∀ s : ℕ, APConsistent (AudioProcessor.set_fft_size AudioProcessor.apInit s) ∧
        (AudioProcessor.set_fft_size AudioProcessor.apInit s).previous_samples =
          AudioProcessor.apInit.previous_samples) ∧
      (∀ l : ℕ, APConsistent (AudioProcessor.set_hop_length AudioProcessor.apInit l) ∧
        (AudioProcessor.set_hop_length AudioProcessor.apInit l).previous_samples =
          List.replicate (AudioProcessor.apInit.window_length - l) 0) ∧
      (∀ l : ℕ, APConsistent (AudioProcessor.set_window_length AudioProcessor.apInit l) ∧
        (AudioProcessor.set_window_length AudioProcessor.apInit l).previous_samples =
          List.replicate (l - AudioProcessor.apInit.hop_length) 0) ∧
      (∀ b : ℕ, APConsistent (AudioProcessor.set_mel_bands AudioProcessor.apInit b) ∧
        (AudioProcessor.set_mel_bands AudioProcessor.apInit b).previous_samples =
          AudioProcessor.apInit.previous_samples) ∧
      (∀ lo hi : ℝ,
        APConsistent (AudioProcessor.set_frequency_range AudioProcessor.apInit lo hi) ∧
        (AudioProcessor.set_frequency_range AudioProcessor.apInit lo hi).previous_samples =
          AudioProcessor.apInit.previous_samples) :=
  ⟨apInit_consistent, setters_recompute_derived AudioProcessor.apInit apInit_consistent⟩

/-!  ## C6: the inference tail of process

The claim says a non-empty engine output yields "exactly the last
output_width values of that output".  The code extracts the slice at flat
offset `(frame_count - 1) * (output_size / frame_count)`; with integer
division these are the last `output_width` values only when `frame_count`
divides the output size.  The counterexample feeds an engine output of
length 5 with two context frames. -/

theorem slice_eq_suffix (out : List ℚ) (n : ℕ) (hn : 0 < n)
    (hd : n ∣ out.length) :
    (List.range (out.length / n)).map
        (fun i => out.getD ((n - 1) * (out.length / n) + i) 0) =
      out.drop (out.length - out.length / n) := by
  obtain ⟨w, hw⟩ := hd
  have hdiv : out.length / n = w := by
    rw [hw]
    exact Nat.mul_div_cancel_left w hn
  have hwle : w ≤ n * w := Nat.le_mul_of_pos_left w hn
  have hidx : (n - 1) * w = n * w - w := by
    cases n with
    | zero => omega
    | succ m =>
      simp [Nat.succ_sub_one, Nat.succ_mul]
  have hwlen : w ≤ out.length := hw ▸ hwle
  apply List.ext_getElem
  · simp only [List.length_map, List.length_range, List.length_drop, hdiv]
    omega
  · intro i h1 h2
    have hi2 : i < w := by
      simpa [hdiv] using h1
    have hib : (n - 1) * (out.length / n) + i < out.length := by
      rw [hdiv, hidx]
      omega
    simp only [List.getElem_map, List.getElem_range, List.getElem_drop]
    rw [List.getD_eq_getElem _ _ hib]
    congr 1
    rw [hdiv, hidx]
    omega

/-- Counterexample to C6 as stated: two context frames, an engine output of
five values `[10, 20, 30, 40, 50]`.  `output_width = 5 / 2 = 2`; the last
two output values are `[40, 50]`, but `process` returns the slice at offset
`(2 - 1) * 2 = 2`, namely `[30, 40]`. -/
theorem process_not_last_slice_counterexample :
    (LipSyncContext.process (fun (s : Unit) (_ : List ℚ) => (s, [1]))
        (fun _ => [10, 20, 30, 40, 50])
        { audio_buffer := List.replicate 160 0, feature_buffer := [[1]],
          context_size := 100, resample_fraction := 0, model_present := true,
          proc := () } [((0 : ℚ), (0 : ℚ))] 16000).2 = [30, 40] ∧
      ([30, 40] : List ℚ) ≠
        List.drop (5 - 5 / 2) ([10, 20, 30, 40, 50] : List ℚ) := by
  constructor
  · rw [LipSyncContext.process]
    norm_num [LipSyncContext.resampleAndPush]
    rw [show (List.replicate 160 (0 : ℚ) ++ [0] : List ℚ) =
        List.replicate 161 0 by decide]
    rw [LipSyncContext.hopLoop]
    norm_num [List.take_replicate, List.drop_replicate]
    rw [LipSyncContext.hopLoop]
    norm_num [LipSyncContext.inferStep]
    decide
  · decide

/-- Claim C6, amended: on a processing call (model present, non-empty
block), with `r` the outcome of the hop loop and `out` the engine's output
on the flattened context window: if new frames were produced, the window is
non-empty and `out` is non-empty, `process` returns the `out.length /
frame_count` values of `out` starting at flat offset `(frame_count - 1) *
(out.length / frame_count)` — which are exactly the last
`output_width` values whenever `frame_count` divides `out.length` — and in
every other case (no new frames, empty window, or empty engine output)
`process` returns the empty result. -/
theorem process_inference_slice {σ : Type} (pf : σ → List ℚ → σ × List ℚ)
    (run : List ℚ → List ℚ) (st : LCState σ) (input : List (ℚ × ℚ))
    (sr : ℕ) (r : List ℚ × List (List ℚ) × σ × Bool)
    (hm : st.model_present = true) (hi : input.length ≠ 0)
    (hr : r = LipSyncContext.hopLoop pf st.context_size
      (LipSyncContext.resampleAndPush st
        (input.map fun p => (p.1 + p.2) * (1 / 2)) sr).audio_buffer
      (LipSyncContext.resampleAndPush st
        (input.map fun p => (p.1 + p.2) * (1 / 2)) sr).feature_buffer
      (LipSyncContext.resampleAndPush st
        (input.map fun p => (p.1 + p.2) * (1 / 2)) sr).proc false) :
    (r.2.2.2 = true → r.2.1 ≠ [] →
      0 < (run (LipSyncContext.flattenFrames r.2.1)).length →
      (LipSyncContext.process pf run st input sr).2 =
        (List.range ((run (LipSyncContext.flattenFrames r.2.1)).length / r.2.1.length)).map
          (fun i => (run (LipSyncContext.flattenFrames r.2.1)).getD
            ((r.2.1.length - 1) *
              ((run (LipSyncContext.flattenFrames r.2.1)).length / r.2.1.length) + i) 0) ∧
      (r.2.1.length ∣ (run (LipSyncContext.flattenFrames r.2.1)).length →
        (LipSyncContext.process pf run st input sr).2 =
          (run (LipSyncContext.flattenFrames r.2.1)).drop
            ((run (LipSyncContext.flattenFrames r.2.1)).length -
              (run (LipSyncContext.flattenFrames r.2.1)).length / r.2.1.length))) ∧
    ((r.2.2.2 = false ∨ r.2.1 = [] ∨
        (run (LipSyncContext.flattenFrames r.2.1)).length = 0) →
      (LipSyncContext.process pf run st input sr).2 = []) := by
  have hproc : (LipSyncContext.process pf run st input sr).2 =
      LipSyncContext.inferStep run r.2.1 r.2.2.2 := by
    rw [LipSyncContext.process, if_neg (by simp [hm]), if_neg (by simpa using hi)]
    simp only [hr]
  constructor
  · intro hadd hne hout
    have hslice : (LipSyncContext.process pf run st input sr).2 =
        (List.range ((run (LipSyncContext.flattenFrames r.2.1)).length / r.2.1.length)).map
          (fun i => (run (LipSyncContext.flattenFrames r.2.1)).getD
            ((r.2.1.length - 1) *
              ((run (LipSyncContext.flattenFrames r.2.1)).length / r.2.1.length) + i) 0) := by
      rw [hproc, LipSyncContext.inferStep, if_pos ⟨hadd, hne⟩, if_pos hout]
    refine ⟨hslice, fun hdvd => ?_⟩
    rw [hslice]
    exact slice_eq_suffix _ _ (List.length_pos.mpr hne) hdvd
  · intro hcase
    rw [hproc, LipSyncContext.inferStep]
    rcases hcase with hf | hf | hf
    · rw [if_neg (by simp [hf])]
    · rw [if_neg (by simp [hf])]
    · by_cases hc : r.2.2.2 = true ∧ r.2.1 ≠ []
      · rw [if_pos hc, if_neg (by omega)]
      · rw [if_neg hc]

/-- Witness for the amended C6 at a concrete call. -/
theorem process_inference_slice_witness :
    (c6r.2.2.2 = true → c6r.2.1 ≠ [] →
      0 < (c6run (LipSyncContext.flattenFrames c6r.2.1)).length →
      (LipSyncContext.process c6pf c6run lcC6state [((0 : ℚ), (0 : ℚ))] 16000).2 =
        (List.range ((c6run (LipSyncContext.flattenFrames c6r.2.1)).length / c6r.2.1.length)).map
          (fun i => (c6run (LipSyncContext.flattenFrames c6r.2.1)).getD
            ((c6r.2.1.length - 1) *
              ((c6run (LipSyncContext.flattenFrames c6r.2.1)).length / c6r.2.1.length) + i) 0) ∧
      (c6r.2.1.length ∣ (c6run (LipSyncContext.flattenFrames c6r.2.1)).length →
        (LipSyncContext.process c6pf c6run lcC6state [((0 : ℚ), (0 : ℚ))] 16000).2 =
          (c6run (LipSyncContext.flattenFrames c6r.2.1)).drop
            ((c6run (LipSyncContext.flattenFrames c6r.2.1)).length -
              (c6run (LipSyncContext.flattenFrames c6r.2.1)).length / c6r.2.1.length))) ∧
    ((c6r.2.2.2 = false ∨ c6r.2.1 = [] ∨
        (c6run (LipSyncContext.flattenFrames c6r.2.1)).length = 0) →
      (LipSyncContext.process c6pf c6run lcC6state [((0 : ℚ), (0 : ℚ))] 16000).2 = []) :=
  process_inference_slice c6pf c6run lcC6state [((0 : ℚ), (0 : ℚ))] 16000 c6r
    rfl (by decide) rfl

/-!  ## C10: process without a model handle or with an empty block -/

/-- Claim C10: if the model handle is null, or the stereo block is empty,
`process` returns the empty result at once and leaves every piece of
transient state (accumulation buffer, carried fraction, context window,
processor state) unchanged; audio arriving before a model exists is
discarded, not accumulated. -/
theorem process_no_model_or_empty_input {σ : Type}
    (pf : σ → List ℚ → σ × List ℚ) (run : List ℚ → List ℚ)
    (st : LCState σ) (input : List (ℚ × ℚ)) (source_rate : ℕ)
    (h : st.model_present = false ∨ input.length = 0) :
    LipSyncContext.process pf run st input source_rate = (st, []) := by
  rcases h with h | h
  · simp [LipSyncContext.process, h]
  · cases hm : st.model_present
    · simp [LipSyncContext.process, hm]
    · simp [LipSyncContext.process, hm, h]

/-- Witness for C10: the freshly constructed context has no model handle,
so a non-empty block is dropped whole with the state intact. -/
theorem process_no_model_or_empty_input_witness :
    (LipSyncContext.lcInit ()).model_present = false ∧
      LipSyncContext.process (fun (s : Unit) (_ : List ℚ) => (s, ([] : List ℚ)))
          (fun _ => ([] : List ℚ)) (LipSyncContext.lcInit ())
          [((1 : ℚ), (2 : ℚ))] 16000 =
        (LipSyncContext.lcInit (), []) :=
  ⟨rfl, process_no_model_or_empty_input _ _ _ _ _ (Or.inl rfl)⟩
